import Mathlib

/-!
The program `mpi_master_slave.c`: a master/slave work queue over MPI.

A shallow embedding of `src/mpi_master_slave.c`.

* The three size macros are the fields of `Params`; `source` holds the values
  the file defines.  The derived macros `MAX_NUMBER` and `TAG_DIE` are written
  as their textual expansion at each place of use.
* `T_NUMBER` is `int`: a value is an `Int` and arithmetic results are reduced
  to the 32-bit two's complement range by `wrap32`.
* The matrix returned by `alloc_contiguous_matrix` is a list of rows.  Rows
  are stored back to back, so the `TOTAL_NUMBERS*PAYLOAD_SIZE` numbers that
  start at `numbers[job_index][0]` are the `PAYLOAD_SIZE` rows from
  `job_index` on.
* A send of `master_send_job` whose rows do not all lie inside the matrix
  reads past the allocated memory; the coordinator does not get beyond such a
  send, and the run ends there without reaching line 82.
* MPI: a message is a tag with a payload.  The coordinator keeps the list of
  assignments it has sent and whose result it has not received.  Which result
  a `MPI_Probe(MPI_ANY_SOURCE, ...)` sees first is not decided by the program;
  it is given by an arrival schedule `sched`.
* A worker keeps one buffer of `PAYLOAD_SIZE` rows for all its passes; it
  receives into it, sorts its `PAYLOAD_SIZE` rows and sends all of it back.

Main results: `partition_completeness`, `no_double_assignment`,
`termination_completeness`, `greedy_dispatch_schedule` and `tag_space` describe
the trace of the coordinator; `generated_dataset_exact` is the arithmetic of
the generated data set; `undersubscribed_seeding` describes a run with more
workers than chunks; `cmpfunc_overflow`, `slave_step_overflow` and
`pipeline_overflow` evaluate the comparison, the worker and the pipeline on
numbers whose difference does not fit an `int`, and
`pipeline_sorts_without_overflow` is the pipeline on all other data sets, the
one that `master` generates among them.
-/

namespace MpiMasterSlave

/-! ## Constants -/

/-- The size macros of the program. -/
structure Params where
  TOTAL_ARRAYS : Nat
  TOTAL_NUMBERS : Nat
  PAYLOAD_SIZE : Nat
deriving DecidableEq, Repr

/-- The values of lines 7, 8 and 16. -/
def source : Params := ⟨10000, 100000, 8⟩

/-- Rank of the coordinator, line 11. -/
def MASTER : Nat := 0

/-- The macro `TAG_DIE` of line 12 where it stands as a whole argument
(`MPI_Send(..., rank, TAG_DIE, ...)`, line 80): `TOTAL_ARRAYS + 1`. -/
def TAG_DIE (c : Params) : Nat := c.TOTAL_ARRAYS + 1

/-! ## 32-bit numbers -/

/-- Reduction of an exact integer to the range of a 32-bit `int`. -/
def wrap32 (x : Int) : Int := (x + 2147483648) % 4294967296 - 2147483648

/-- The values an `int` can hold. -/
def InInt32 (x : Int) : Prop := -2147483648 ≤ x ∧ x ≤ 2147483647

instance (x : Int) : Decidable (InInt32 x) := by
  unfold InInt32; infer_instance

/-- Lines 127-129: `return ( *(T_NUMBER*)a - *(T_NUMBER*)b );`. -/
def cmpfunc (a b : Int) : Int := wrap32 (a - b)

/-- Line 54, `numbers[i][n] = MAX_NUMBER - i * TOTAL_NUMBERS - n;`, with
`MAX_NUMBER` replaced by its text `TOTAL_ARRAYS * TOTAL_NUMBERS`; every
operation is an `int` operation. -/
def initial_number (c : Params) (i n : Nat) : Int :=
  wrap32 (wrap32 (wrap32 ((c.TOTAL_ARRAYS : Int) * (c.TOTAL_NUMBERS : Int))
    - wrap32 ((i : Int) * (c.TOTAL_NUMBERS : Int))) - (n : Int))

/-- The same expression of line 54 over the integers, without reduction. -/
def initial_number_exact (c : Params) (i n : Nat) : Int :=
  (c.TOTAL_ARRAYS : Int) * (c.TOTAL_NUMBERS : Int) - (i : Int) * (c.TOTAL_NUMBERS : Int) - (n : Int)

/-- A matrix of numbers, as `alloc_contiguous_matrix` returns it. -/
abbrev Matrix := List (List Int)

/-- Lines 52-55: the data set the coordinator fills in. -/
def initial_numbers (c : Params) : Matrix :=
  (List.range c.TOTAL_ARRAYS).map fun i =>
    (List.range c.TOTAL_NUMBERS).map fun n => initial_number c i n

/-! ## qsort -/

/-- Insertion of `x` before the first element it does not compare greater
than. -/
def qsort_insert (compar : Int → Int → Int) (x : Int) : List Int → List Int
  | [] => [x]
  | y :: ys => if compar x y ≤ 0 then x :: y :: ys else y :: qsort_insert compar x ys

/-- The library routine `qsort(base, nitems, size, compar)`, which is not part
of the repository: a comparison sort of the first `nitems` elements of `base`
that consults only `compar`, here insertion sort. -/
def qsort (base : List Int) (nitems : Nat) (compar : Int → Int → Int) : List Int :=
  (base.take nitems).foldr (qsort_insert compar) [] ++ base.drop nitems

/-! ## Messages -/

/-- Lines 131-144: a matrix of `rows` rows of `columns` numbers in one block of
memory; `calloc` fills it with zeros. -/
def alloc_contiguous_matrix (rows columns : Nat) : Matrix :=
  List.replicate rows (List.replicate columns 0)

/-- What `MPI_Probe` and `MPI_Recv` see of a message: its tag and its data,
whole rows of `TOTAL_NUMBERS` numbers. -/
structure Msg where
  tag : Nat
  payload : Matrix
deriving DecidableEq, Repr

/-! ## The worker -/

/-- Line 118, `MPI_Recv(&(payload[0][0]), TOTAL_NUMBERS*PAYLOAD_SIZE, ...)`:
the rows of the message `data` overwrite the first rows of the buffer
`payload` of the worker, at most `PAYLOAD_SIZE` rows are taken, and the rows
of the buffer that the message does not reach keep what they held. -/
def slave_receive_job (c : Params) (payload data : Matrix) : Matrix :=
  (data ++ payload.drop data.length).take c.PAYLOAD_SIZE

/-- Lines 119-121: `for (i = 0; i < PAYLOAD_SIZE; i++) qsort(payload[i], ...)`. -/
def sort_payload (c : Params) (payload : Matrix) : Matrix :=
  (List.range c.PAYLOAD_SIZE).foldl
    (fun p i =>
      match p[i]? with
      | some row => p.set i (qsort row c.TOTAL_NUMBERS cmpfunc)
      | none => p)
    payload

/-- What `slave` does to one row: line 121. -/
def sort_row (c : Params) (row : List Int) : List Int := qsort row c.TOTAL_NUMBERS cmpfunc

/-- One pass through the loop body of `slave` (lines 113-123) for the message
that `MPI_Probe` reports, with `payload` the buffer of the worker as the
previous pass left it: `none` is the `break` of line 114, `some (r, p)` is the
message `r` sent to the coordinator at line 123, the whole buffer, and the
buffer `p` after the pass.  In line 114 the macro is expanded in place:
`status.MPI_TAG == TOTAL_ARRAYS + 1`. -/
def slave_step (c : Params) (payload : Matrix) (m : Msg) : Option (Msg × Matrix) :=
  if m.tag == c.TOTAL_ARRAYS + 1 then none
  else
    let job_index := m.tag
    let payload := sort_payload c (slave_receive_job c payload m.payload)
    some (⟨job_index, payload⟩, payload)

/-- The loop of lines 112-124 from the buffer `payload` on, run on the
messages the coordinator sends to this worker, oldest first; the value is the
list of messages the worker sends back.  With no message left the worker
waits in `MPI_Probe`. -/
def slave_loop (c : Params) : Matrix → List Msg → List Msg
  | _, [] => []
  | payload, m :: rest =>
    match slave_step c payload m with
    | none => []
    | some (r, payload1) => r :: slave_loop c payload1 rest

/-- The function `slave` (lines 103-125): the buffer is allocated at line 107,
then the loop runs. -/
def slave (c : Params) (msgs : List Msg) : List Msg :=
  slave_loop c (alloc_contiguous_matrix c.PAYLOAD_SIZE c.TOTAL_NUMBERS) msgs

/-! ## The coordinator -/

/-- An assignment that was sent and whose result was not yet received. -/
structure Assignment where
  dest : Nat
  msg : Msg
deriving DecidableEq, Repr

/-- The MPI calls of the coordinator, in the order it makes them. -/
inductive Event where
  | job (job_index dest : Nat)
  | result (job_index src : Nat)
  | die (tag dest : Nat)
deriving DecidableEq, Repr

/-- State of the coordinator, of the messages in flight and of the workers:
`workers` holds the buffer of every worker that has answered an assignment,
the latest entry of a rank first. -/
structure MState where
  numbers : Matrix
  outstanding : List Assignment
  received : Nat
  trace : List Event
  workers : List (Nat × Matrix)
deriving DecidableEq, Repr

/-- The buffer of the worker `rank`: what its last pass left, or the zeros of
line 107 when it has not answered yet. -/
def worker_payload (c : Params) (st : MState) (rank : Nat) : Matrix :=
  match st.workers.lookup rank with
  | some payload => payload
  | none => alloc_contiguous_matrix c.PAYLOAD_SIZE c.TOTAL_NUMBERS

/-- The reply of worker `src` to the assignment message `m`, from the buffer
the state records for it. -/
def reply_payload (c : Params) (st : MState) (src : Nat) (m : Msg) : Matrix :=
  sort_payload c (slave_receive_job c (worker_payload c st src) m.payload)

/-- The `PAYLOAD_SIZE` rows that start at row `job_index`, for a `job_index`
with `job_index + PAYLOAD_SIZE` rows in the matrix (`master_send_job` reads
no other). -/
def chunk (c : Params) (numbers : Matrix) (job_index : Nat) : Matrix :=
  (numbers.drop job_index).take c.PAYLOAD_SIZE

/-- Rows `job_index`, `job_index + 1`, ... overwritten by the rows of `payload`. -/
def store (numbers : Matrix) (job_index : Nat) (payload : Matrix) : Matrix :=
  numbers.take job_index ++ payload ++ numbers.drop (job_index + payload.length)

/-- Lines 87-89: `MPI_Send(&(numbers[job_index][0]), ..., dest, job_index, ...)`.
The call reads the `PAYLOAD_SIZE` rows from `job_index` on.  The matrix
allocated at line 51 has `TOTAL_ARRAYS` rows; when the rows to be read do not
all lie inside it (from `job_index = TOTAL_ARRAYS` on already `numbers[job_index]`
is read past the array of row pointers) the read has no defined behaviour and
the coordinator does not get beyond it: `none`, and no message is sent. -/
def master_send_job (c : Params) (st : MState) (job_index dest : Nat) : Option MState :=
  if job_index + c.PAYLOAD_SIZE ≤ c.TOTAL_ARRAYS then
    some { st with
      outstanding := st.outstanding ++ [⟨dest, ⟨job_index, chunk c st.numbers job_index⟩⟩]
      trace := st.trace ++ [Event.job job_index dest] }
  else none

/-- The oldest assignment sent to `src`, and the other assignments. -/
def oldest_for (src : Nat) : List Assignment → Option (Assignment × List Assignment)
  | [] => none
  | a :: as =>
    if a.dest = src then some (a, as)
    else
      match oldest_for src as with
      | none => none
      | some (b, rest) => some (b, a :: rest)

/-- Lines 91-101.  `MPI_Probe` returns the envelope of a result; the results
that can arrive are those of the workers with an assignment outstanding, and
`sched` selects one of them.  That worker answers its oldest assignment by
`slave_step`; the result is stored at the rows its tag names and its source is
returned.  With nothing outstanding, or when the selected worker has left its
loop instead of answering, `MPI_Probe` does not return: `none`. -/
def master_receive_result (c : Params) (sched : Nat → Nat) (st : MState) : Option (MState × Nat) :=
  match st.outstanding[sched st.received % st.outstanding.length]? with
  | none => none
  | some pick =>
    match oldest_for pick.dest st.outstanding with
    | none => none
    | some (a, rest) =>
      match slave_step c (worker_payload c st a.dest) a.msg with
      | none => none
      | some (r, payload) =>
        let job_index := r.tag
        let src := a.dest
        some ({ numbers := store st.numbers job_index r.payload
                outstanding := rest
                received := st.received + 1
                trace := st.trace ++ [Event.result job_index src]
                workers := (src, payload) :: st.workers }, src)

/-- Lines 63-65, `for (rank = 1; rank < ntasks; ++rank) master_send_job(...)`,
for the values of `rank` in the list; the flag tells whether the loop ran to
its end (`false`: the coordinator did not get beyond a send). -/
def seed_slaves (c : Params) : List Nat → MState → MState × Bool
  | [], st => (st, true)
  | rank :: ranks, st =>
    match master_send_job c st ((rank - 1) * c.PAYLOAD_SIZE) rank with
    | none => (st, false)
    | some st1 => seed_slaves c ranks st1

/-- Lines 68-71, for the values of `i` in the list; the flag tells whether the
loop ran to its end (`false`: a receive never returned, or the coordinator did
not get beyond a send). -/
def send_remaining (c : Params) (sched : Nat → Nat) : List Nat → MState → MState × Bool
  | [], st => (st, true)
  | i :: is, st =>
    match master_receive_result c sched st with
    | none => (st, false)
    | some (st1, src) =>
      match master_send_job c st1 (i * c.PAYLOAD_SIZE) src with
      | none => (st1, false)
      | some st2 => send_remaining c sched is st2

/-- Lines 75-76, for the values of `rank` in the list. -/
def wait_completed (c : Params) (sched : Nat → Nat) : List Nat → MState → MState × Bool
  | [], st => (st, true)
  | _ :: ranks, st =>
    match master_receive_result c sched st with
    | none => (st, false)
    | some (st1, _) => wait_completed c sched ranks st1

/-- Lines 79-81: `MPI_Send(&rank, 1, T_MPI_TYPE, rank, TAG_DIE, ...)` for every
rank from 1 on. -/
def kill_slaves (c : Params) (ntasks : Nat) (st : MState) : MState :=
  (List.range' 1 (ntasks - 1)).foldl
    (fun s rank => { s with trace := s.trace ++ [Event.die (TAG_DIE c) rank] }) st

/-- Lines 60-82 of `master`, with `numbers` the matrix of `TOTAL_ARRAYS` rows
as lines 51-55 left it, `ntasks` processes and the arrival schedule `sched`.
The flag tells whether `master` reached line 82. -/
def master (c : Params) (ntasks : Nat) (sched : Nat → Nat) (numbers : Matrix) : MState × Bool :=
  let st0 : MState := ⟨numbers, [], 0, [], []⟩
  match seed_slaves c (List.range' 1 (ntasks - 1)) st0 with
  | (st1, false) => (st1, false)
  | (st1, true) =>
    match send_remaining c sched
        (List.range' (ntasks - 1) (c.TOTAL_ARRAYS / c.PAYLOAD_SIZE - (ntasks - 1))) st1 with
    | (st2, false) => (st2, false)
    | (st2, true) =>
      match wait_completed c sched (List.range' 1 (ntasks - 1)) st2 with
      | (st3, false) => (st3, false)
      | (st3, true) => (kill_slaves c ntasks st3, true)

/-- The assignments of a trace, as pairs of job index and destination. -/
def jobs_sent : List Event → List (Nat × Nat)
  | [] => []
  | Event.job j d :: t => (j, d) :: jobs_sent t
  | _ :: t => jobs_sent t

/-- The results of a trace, as pairs of job index and source. -/
def results_received : List Event → List (Nat × Nat)
  | [] => []
  | Event.result j s :: t => (j, s) :: results_received t
  | _ :: t => results_received t

/-- The termination messages of a trace, as pairs of tag and destination. -/
def dies_sent : List Event → List (Nat × Nat)
  | [] => []
  | Event.die g d :: t => (g, d) :: dies_sent t
  | _ :: t => dies_sent t

/-- Number of assignments a trace sends to worker `w`. -/
def sent_to (w : Nat) (tr : List Event) : Nat := ((jobs_sent tr).map Prod.snd).count w

/-- Number of results a trace receives from worker `w`. -/
def received_from (w : Nat) (tr : List Event) : Nat :=
  ((results_received tr).map Prod.snd).count w

/-! ## Invariants of a run -/

/-- The workers with an assignment outstanding. -/
def busy (st : MState) : List Nat := st.outstanding.map fun a => a.dest

/-- Invariant of the coordinator: in every prefix of the trace each worker has
received at most one assignment more than it has returned results, the
difference over the whole trace is the number of its outstanding assignments,
and no worker has two of them. -/
structure Booked (st : MState) : Prop where
  prefixes : ∀ n w, received_from w (st.trace.take n) ≤ sent_to w (st.trace.take n) ∧
    sent_to w (st.trace.take n) ≤ received_from w (st.trace.take n) + 1
  link : ∀ w, sent_to w st.trace = received_from w st.trace + (busy st).count w
  nodup : (busy st).Nodup

/-! ## The parts of a trace -/

/-- The events of the seeding loop for `W` workers. -/
def seed_trace (c : Params) (W : Nat) : List Event :=
  (List.range W).map fun k => Event.job (k * c.PAYLOAD_SIZE) (k + 1)

/-- The assignments outstanding after the seeding loop for `W` workers. -/
def seed_outstanding (c : Params) (numbers : Matrix) (W : Nat) : List Assignment :=
  (List.range W).map fun k =>
    ⟨k + 1, ⟨k * c.PAYLOAD_SIZE, chunk c numbers (k * c.PAYLOAD_SIZE)⟩⟩

/-- The events of the loop of lines 68-71 from counter `i` on, when the
results come with the listed tags and sources: each result is followed by the
next job, sent to the source of that result. -/
def dispatch_trace (c : Params) : Nat → List (Nat × Nat) → List Event
  | _, [] => []
  | i, r :: rs =>
    Event.result r.1 r.2 :: Event.job (i * c.PAYLOAD_SIZE) r.2 :: dispatch_trace c (i + 1) rs

/-- The events of the loop of lines 75-76 for the listed results. -/
def drain_trace (rs : List (Nat × Nat)) : List Event :=
  rs.map fun r => Event.result r.1 r.2

/-- The events of the loop of lines 79-81 for `W` workers. -/
def kill_trace (c : Params) (W : Nat) : List Event :=
  (List.range' 1 W).map fun rank => Event.die (TAG_DIE c) rank

/-- The outstanding assignments of a run inside the data set: tags below
`TOTAL_ARRAYS`, destinations among the workers `1 .. W`. -/
def InFlight (c : Params) (W : Nat) (st : MState) : Prop :=
  ∀ a ∈ st.outstanding, a.msg.tag < c.TOTAL_ARRAYS ∧ 1 ≤ a.dest ∧ a.dest ≤ W

/-- Every assignment of the trace has a job index that `PAYLOAD_SIZE` divides. -/
def Aligned (c : Params) (st : MState) : Prop :=
  ∀ p ∈ jobs_sent st.trace, c.PAYLOAD_SIZE ∣ p.1

/-! ## Concrete inputs -/

/-- The constants of the scenario: 8 arrays of 4 numbers, chunks of 2. -/
def scenario : Params := ⟨8, 4, 2⟩

/-- A data set for the scenario, filled as lines 52-55 fill it. -/
def scenario_numbers : Matrix := initial_numbers scenario

/-- A row of `TOTAL_NUMBERS` numbers: 1, then the smallest `int` throughout. -/
def overflow_row (c : Params) : List Int :=
  1 :: List.replicate (c.TOTAL_NUMBERS - 1) (-2147483648)

theorem wrap32_of_inInt32 {x : Int} (h : InInt32 x) : wrap32 x = x := by
  unfold InInt32 at h
  unfold wrap32
  omega

theorem inInt32_wrap32 (x : Int) : InInt32 (wrap32 x) := by
  unfold InInt32 wrap32
  omega

theorem cmpfunc_of_no_overflow {a b : Int} (h : InInt32 (a - b)) :
    cmpfunc a b = a - b := wrap32_of_inInt32 h

theorem cmpfunc_sign_of_no_overflow {a b : Int} (h : InInt32 (a - b)) :
    (cmpfunc a b < 0 ↔ a < b) ∧ (cmpfunc a b = 0 ↔ a = b) ∧ (0 < cmpfunc a b ↔ b < a) := by
  rw [cmpfunc_of_no_overflow h]
  omega

theorem initial_number_source (i n : Nat) (hi : i < 10000) (hn : n < 100000) :
    initial_number source i n = 1000000000 - (i : Int) * 100000 - (n : Int) := by
  simp only [initial_number, source, wrap32]
  push_cast
  omega

/-! ## qsort: permutation, and order when the comparison is right -/

theorem qsort_insert_perm (compar : Int → Int → Int) (x : Int) (l : List Int) :
    (qsort_insert compar x l).Perm (x :: l) := by
  induction l with
  | nil => exact List.Perm.refl _
  | cons y ys ih =>
    unfold qsort_insert
    split
    · exact List.Perm.refl _
    · exact ((List.Perm.cons y ih).trans (List.Perm.swap x y ys))

theorem foldr_qsort_insert_perm (compar : Int → Int → Int) (l : List Int) :
    (l.foldr (qsort_insert compar) []).Perm l := by
  induction l with
  | nil => exact List.Perm.refl _
  | cons y ys ih =>
    rw [List.foldr_cons]
    exact (qsort_insert_perm compar y _).trans (List.Perm.cons y ih)

theorem qsort_perm (base : List Int) (nitems : Nat) (compar : Int → Int → Int) :
    (qsort base nitems compar).Perm base := by
  unfold qsort
  have h := (foldr_qsort_insert_perm compar (base.take nitems)).append_right (base.drop nitems)
  rwa [List.take_append_drop] at h

theorem qsort_length (base : List Int) (nitems : Nat) (compar : Int → Int → Int) :
    (qsort base nitems compar).length = base.length :=
  (qsort_perm base nitems compar).length_eq

theorem foldr_qsort_insert_replicate (compar : Int → Int → Int) (x : Int)
    (hx : compar x x ≤ 0) (n : Nat) :
    (List.replicate n x).foldr (qsort_insert compar) [] = List.replicate n x := by
  induction n with
  | zero => rfl
  | succ n ih =>
    rw [List.replicate_succ, List.foldr_cons, ih]
    cases n with
    | zero => rfl
    | succ m =>
      rw [List.replicate_succ]
      unfold qsort_insert
      rw [if_pos hx]

/-- One element followed by copies of an element it compares below: `qsort`
leaves the array as it is. -/
theorem qsort_cons_replicate (compar : Int → Int → Int) (x y : Int) (n nitems : Nat)
    (hn : n + 1 ≤ nitems) (hy : compar y y ≤ 0) (hxy : compar x y ≤ 0) :
    qsort (x :: List.replicate n y) nitems compar = x :: List.replicate n y := by
  unfold qsort
  have hlen : (x :: List.replicate n y).length ≤ nitems := by simpa using hn
  rw [List.take_of_length_le hlen, List.drop_of_length_le hlen, List.append_nil,
    List.foldr_cons, foldr_qsort_insert_replicate compar y hy]
  cases n with
  | zero => rfl
  | succ m =>
    rw [List.replicate_succ]
    unfold qsort_insert
    rw [if_pos hxy]

/-! ## The worker: the sorting loop and one step -/

theorem sort_payload_getElem? (c : Params) (payload : Matrix) (r : Nat) :
    (sort_payload c payload)[r]? =
      if r < c.PAYLOAD_SIZE then (payload[r]?).map (sort_row c) else payload[r]? := by
  unfold sort_payload
  generalize c.PAYLOAD_SIZE = n
  induction n generalizing r with
  | zero => simp
  | succ n ih =>
    rw [List.range_succ, List.foldl_append]
    simp only [List.foldl_cons, List.foldl_nil]
    have hn := ih n
    simp only [lt_irrefl, if_false] at hn
    cases hp : payload[n]? with
    | none =>
      rw [hp] at hn
      rw [hn]
      simp only
      rw [ih r]
      by_cases h1 : r < n
      · simp [h1, Nat.lt_succ_of_lt h1]
      · by_cases h2 : r = n
        · subst h2
          simp [hp]
        · have h3 : ¬ r < n + 1 := by omega
          simp [h1, h3]
    | some row =>
      rw [hp] at hn
      rw [hn]
      simp only
      rw [List.getElem?_set]
      by_cases h2 : n = r
      · subst h2
        have hlt : n < (List.foldl
            (fun p i =>
              match p[i]? with
              | some row => p.set i (qsort row c.TOTAL_NUMBERS cmpfunc)
              | none => p) payload (List.range n)).length := by
          rcases List.getElem?_eq_some.mp hn with ⟨h, _⟩
          exact h
        simp [hlt, hp, sort_row]
      · rw [if_neg h2, ih r]
        by_cases h1 : r < n
        · simp [h1, Nat.lt_succ_of_lt h1]
        · have h3 : ¬ r < n + 1 := by omega
          simp [h1, h3]

theorem sort_payload_eq_map (c : Params) (payload : Matrix)
    (h : payload.length ≤ c.PAYLOAD_SIZE) :
    sort_payload c payload = payload.map (sort_row c) := by
  apply List.ext_getElem?
  intro r
  rw [sort_payload_getElem?, List.getElem?_map]
  by_cases h1 : r < c.PAYLOAD_SIZE
  · rw [if_pos h1]
  · rw [if_neg h1, List.getElem?_eq_none (by omega)]
    rfl

theorem sort_payload_length (c : Params) (payload : Matrix) :
    (sort_payload c payload).length = payload.length := by
  unfold sort_payload
  generalize c.PAYLOAD_SIZE = n
  induction n with
  | zero => simp
  | succ n ih =>
    rw [List.range_succ, List.foldl_append]
    simp only [List.foldl_cons, List.foldl_nil]
    split
    · rw [List.length_set, ih]
    · exact ih

theorem slave_receive_job_full (c : Params) (payload data : Matrix)
    (h : data.length = c.PAYLOAD_SIZE) : slave_receive_job c payload data = data := by
  unfold slave_receive_job
  rw [List.take_append_of_le_length (le_of_eq h.symm), List.take_of_length_le (le_of_eq h)]

theorem slave_receive_job_length_le (c : Params) (payload data : Matrix) :
    (slave_receive_job c payload data).length ≤ c.PAYLOAD_SIZE := by
  unfold slave_receive_job
  rw [List.length_take]
  exact Nat.min_le_left _ _

theorem slave_receive_job_length (c : Params) (payload data : Matrix)
    (h : payload.length = c.PAYLOAD_SIZE) :
    (slave_receive_job c payload data).length = c.PAYLOAD_SIZE := by
  unfold slave_receive_job
  rw [List.length_take, List.length_append, List.length_drop]
  omega

theorem slave_step_eq (c : Params) (payload : Matrix) (m : Msg) (h : m.tag ≠ TAG_DIE c) :
    slave_step c payload m =
      some (⟨m.tag, sort_payload c (slave_receive_job c payload m.payload)⟩,
        sort_payload c (slave_receive_job c payload m.payload)) := by
  unfold slave_step
  have : (m.tag == c.TOTAL_ARRAYS + 1) = false := by
    simpa [TAG_DIE] using h
  simp [this]

theorem slave_step_eq_none_iff (c : Params) (payload : Matrix) (m : Msg) :
    slave_step c payload m = none ↔ m.tag = TAG_DIE c := by
  unfold slave_step TAG_DIE
  by_cases h : m.tag = c.TOTAL_ARRAYS + 1
  · simp [h]
  · simp [h]

theorem slave_step_some {c : Params} {payload p : Matrix} {m r : Msg}
    (h : slave_step c payload m = some (r, p)) :
    r = ⟨m.tag, sort_payload c (slave_receive_job c payload m.payload)⟩ ∧
      p = sort_payload c (slave_receive_job c payload m.payload) := by
  unfold slave_step at h
  split at h
  · exact absurd h (by simp)
  · simp only [Option.some.injEq, Prod.mk.injEq] at h
    exact ⟨h.1.symm, h.2.symm⟩

theorem alloc_contiguous_matrix_length (rows columns : Nat) :
    (alloc_contiguous_matrix rows columns).length = rows := by
  unfold alloc_contiguous_matrix
  rw [List.length_replicate]

/-! ## Reading a trace: basic facts -/

theorem jobs_sent_append (t u : List Event) : jobs_sent (t ++ u) = jobs_sent t ++ jobs_sent u := by
  induction t with
  | nil => rfl
  | cons e t ih => cases e <;> simp [jobs_sent, ih]

theorem results_received_append (t u : List Event) :
    results_received (t ++ u) = results_received t ++ results_received u := by
  induction t with
  | nil => rfl
  | cons e t ih => cases e <;> simp [results_received, ih]

theorem dies_sent_append (t u : List Event) : dies_sent (t ++ u) = dies_sent t ++ dies_sent u := by
  induction t with
  | nil => rfl
  | cons e t ih => cases e <;> simp [dies_sent, ih]

theorem sent_to_append (w : Nat) (t u : List Event) :
    sent_to w (t ++ u) = sent_to w t + sent_to w u := by
  simp [sent_to, jobs_sent_append]

theorem received_from_append (w : Nat) (t u : List Event) :
    received_from w (t ++ u) = received_from w t + received_from w u := by
  simp [received_from, results_received_append]

/-! ## The coordinator: single calls -/

theorem oldest_for_some {src : Nat} {l : List Assignment} {a : Assignment}
    {rest : List Assignment} (h : oldest_for src l = some (a, rest)) :
    a.dest = src ∧ l.Perm (a :: rest) := by
  induction l generalizing a rest with
  | nil => simp [oldest_for] at h
  | cons b bs ih =>
    unfold oldest_for at h
    by_cases hb : b.dest = src
    · rw [if_pos hb] at h
      simp only [Option.some.injEq, Prod.mk.injEq] at h
      obtain ⟨rfl, rfl⟩ := h
      exact ⟨hb, List.Perm.refl _⟩
    · rw [if_neg hb] at h
      cases ho : oldest_for src bs with
      | none => simp [ho] at h
      | some pr =>
        obtain ⟨a2, rest2⟩ := pr
        rw [ho] at h
        simp only [Option.some.injEq, Prod.mk.injEq] at h
        obtain ⟨rfl, rfl⟩ := h
        obtain ⟨h1, h2⟩ := ih ho
        exact ⟨h1, (List.Perm.cons b h2).trans (List.Perm.swap _ _ _)⟩

theorem oldest_for_of_mem {src : Nat} {l : List Assignment} {b : Assignment}
    (hb : b ∈ l) (hd : b.dest = src) : ∃ a rest, oldest_for src l = some (a, rest) := by
  induction l with
  | nil => simp at hb
  | cons x xs ih =>
    unfold oldest_for
    by_cases hx : x.dest = src
    · exact ⟨x, xs, by rw [if_pos hx]⟩
    · rw [if_neg hx]
      rcases List.mem_cons.mp hb with rfl | hb
      · exact absurd hd hx
      · obtain ⟨a, rest, h⟩ := ih hb
        exact ⟨a, x :: rest, by rw [h]⟩

/-- What a receive that returns has done. -/
theorem master_receive_result_some {c : Params} {sched : Nat → Nat} {st st1 : MState} {src : Nat}
    (h : master_receive_result c sched st = some (st1, src)) :
    ∃ a rest, a.dest = src ∧ st.outstanding.Perm (a :: rest) ∧
      st1 = ⟨store st.numbers a.msg.tag (reply_payload c st src a.msg), rest, st.received + 1,
        st.trace ++ [Event.result a.msg.tag src],
        (src, reply_payload c st src a.msg) :: st.workers⟩ := by
  unfold master_receive_result at h
  cases hp : st.outstanding[sched st.received % st.outstanding.length]? with
  | none => simp [hp] at h
  | some pick =>
    rw [hp] at h
    simp only at h
    cases ho : oldest_for pick.dest st.outstanding with
    | none => simp [ho] at h
    | some pr =>
      obtain ⟨a, rest⟩ := pr
      rw [ho] at h
      simp only at h
      cases hs : slave_step c (worker_payload c st a.dest) a.msg with
      | none => simp [hs] at h
      | some rp =>
        obtain ⟨r, p2⟩ := rp
        rw [hs] at h
        simp only [Option.some.injEq, Prod.mk.injEq] at h
        obtain ⟨h1, h2⟩ := h
        obtain ⟨_, hperm⟩ := oldest_for_some ho
        obtain ⟨hr, hp2⟩ := slave_step_some hs
        refine ⟨a, rest, h2, hperm, ?_⟩
        rw [← h1, hp2, hr, ← h2]
        rfl

/-- A receive returns when an assignment is outstanding and no outstanding
assignment carries the termination tag. -/
theorem master_receive_result_progress (c : Params) (sched : Nat → Nat) (st : MState)
    (hne : st.outstanding ≠ [])
    (htag : ∀ a ∈ st.outstanding, a.msg.tag ≠ TAG_DIE c) :
    ∃ st1 src, master_receive_result c sched st = some (st1, src) := by
  unfold master_receive_result
  have hlen : 0 < st.outstanding.length := List.length_pos.mpr hne
  have hlt : sched st.received % st.outstanding.length < st.outstanding.length :=
    Nat.mod_lt _ hlen
  obtain ⟨pick, hpick⟩ : ∃ pick, st.outstanding[sched st.received % st.outstanding.length]? = some pick :=
    ⟨_, List.getElem?_eq_getElem hlt⟩
  rw [hpick]
  have hmem : pick ∈ st.outstanding := by
    rcases List.getElem?_eq_some.mp hpick with ⟨h, rfl⟩
    exact List.getElem_mem _
  obtain ⟨a, rest, ho⟩ := oldest_for_of_mem hmem rfl
  simp only
  rw [ho]
  have ha : a ∈ st.outstanding := (oldest_for_some ho).2.symm.subset (List.mem_cons_self a rest)
  simp only
  rw [slave_step_eq c _ a.msg (htag a ha)]
  exact ⟨_, _, rfl⟩

/-- A send that returns has read rows inside the matrix and has added one
assignment and one event. -/
theorem master_send_job_some {c : Params} {st st1 : MState} {job_index dest : Nat}
    (h : master_send_job c st job_index dest = some st1) :
    job_index + c.PAYLOAD_SIZE ≤ c.TOTAL_ARRAYS ∧
      st1 = ⟨st.numbers,
        st.outstanding ++ [⟨dest, ⟨job_index, chunk c st.numbers job_index⟩⟩], st.received,
        st.trace ++ [Event.job job_index dest], st.workers⟩ := by
  unfold master_send_job at h
  split at h
  · rename_i hle
    exact ⟨hle, (Option.some.inj h).symm⟩
  · exact absurd h (by simp)

theorem master_send_job_of_le (c : Params) (st : MState) (job_index dest : Nat)
    (h : job_index + c.PAYLOAD_SIZE ≤ c.TOTAL_ARRAYS) :
    master_send_job c st job_index dest =
      some ⟨st.numbers,
        st.outstanding ++ [⟨dest, ⟨job_index, chunk c st.numbers job_index⟩⟩], st.received,
        st.trace ++ [Event.job job_index dest], st.workers⟩ := by
  unfold master_send_job
  rw [if_pos h]

theorem master_send_job_of_gt (c : Params) (st : MState) (job_index dest : Nat)
    (h : c.TOTAL_ARRAYS < job_index + c.PAYLOAD_SIZE) :
    master_send_job c st job_index dest = none := by
  unfold master_send_job
  rw [if_neg (by omega)]

/-! ## No worker is booked twice -/

theorem booked_init (numbers : Matrix) : Booked ⟨numbers, [], 0, [], []⟩ := by
  refine ⟨?_, ?_, ?_⟩
  · intro n w
    simp [sent_to, received_from, jobs_sent, results_received]
  · intro w
    simp [sent_to, received_from, jobs_sent, results_received, busy]
  · simp [busy]

theorem booked_of_append {st st1 : MState} (e : Event) (h : Booked st)
    (ht : st1.trace = st.trace ++ [e])
    (hl : ∀ w, sent_to w st1.trace = received_from w st1.trace + (busy st1).count w)
    (hn : (busy st1).Nodup) : Booked st1 := by
  refine ⟨?_, hl, hn⟩
  intro n w
  by_cases hle : n ≤ st.trace.length
  · have : st1.trace.take n = st.trace.take n := by
      rw [ht, List.take_append_of_le_length hle]
    rw [this]
    exact h.prefixes n w
  · have : st1.trace.take n = st1.trace := by
      apply List.take_of_length_le
      rw [ht, List.length_append, List.length_singleton]
      omega
    rw [this, hl w]
    have := List.nodup_iff_count_le_one.mp hn w
    omega

theorem busy_send {c : Params} {st st1 : MState} {job_index dest : Nat}
    (hs : master_send_job c st job_index dest = some st1) : busy st1 = busy st ++ [dest] := by
  obtain ⟨_, rfl⟩ := master_send_job_some hs
  simp [busy]

theorem booked_send {c : Params} {st st1 : MState} {job_index dest : Nat} (h : Booked st)
    (hd : dest ∉ busy st) (hs : master_send_job c st job_index dest = some st1) :
    Booked st1 := by
  have hb := busy_send hs
  obtain ⟨_, rfl⟩ := master_send_job_some hs
  refine booked_of_append (Event.job job_index dest) h rfl ?_ ?_
  · intro w
    rw [hb]
    show sent_to w (st.trace ++ [Event.job job_index dest]) =
      received_from w (st.trace ++ [Event.job job_index dest]) + (busy st ++ [dest]).count w
    rw [sent_to_append, received_from_append, List.count_append, h.link w]
    by_cases hw : dest = w
    · simp [sent_to, received_from, jobs_sent, results_received, hw]
      omega
    · have hw2 : ¬ w = dest := fun e => hw e.symm
      simp [sent_to, received_from, jobs_sent, results_received, hw, hw2]
  · rw [hb]
    refine List.Nodup.append h.nodup (List.nodup_singleton dest) ?_
    intro x hx hx2
    rw [List.mem_singleton] at hx2
    exact hd (hx2 ▸ hx)

theorem booked_receive {c : Params} {sched : Nat → Nat} {st st1 : MState} {src : Nat}
    (h : Booked st) (hr : master_receive_result c sched st = some (st1, src)) :
    Booked st1 ∧ src ∉ busy st1 := by
  obtain ⟨a, rest, hsrc, hperm, rfl⟩ := master_receive_result_some hr
  have hb : (busy st).Perm (src :: rest.map fun a => a.dest) := by
    have := hperm.map fun a => a.dest
    simpa [busy, hsrc] using this
  have hnd : (src :: rest.map fun a => a.dest).Nodup := hb.nodup_iff.mp h.nodup
  have hnd2 := List.nodup_cons.mp hnd
  refine ⟨booked_of_append (Event.result a.msg.tag src) h rfl ?_ hnd2.2, hnd2.1⟩
  intro w
  show sent_to w (st.trace ++ [Event.result a.msg.tag src]) =
    received_from w (st.trace ++ [Event.result a.msg.tag src]) +
      (rest.map fun a => a.dest).count w
  rw [sent_to_append, received_from_append, h.link w, hb.count_eq w, List.count_cons]
  by_cases hw : src = w
  · simp [sent_to, received_from, jobs_sent, results_received, hw]
    omega
  · have hw2 : ¬ w = src := fun e => hw e.symm
    simp [sent_to, received_from, jobs_sent, results_received, hw, hw2]

theorem booked_die {st : MState} (tag dest : Nat) (h : Booked st) :
    Booked { st with trace := st.trace ++ [Event.die tag dest] } := by
  refine booked_of_append (Event.die tag dest) h rfl ?_ h.nodup
  intro w
  show sent_to w (st.trace ++ [Event.die tag dest]) =
    received_from w (st.trace ++ [Event.die tag dest]) + (busy st).count w
  rw [sent_to_append, received_from_append, h.link w]
  simp [sent_to, received_from, jobs_sent, results_received]

theorem booked_seed_slaves (c : Params) (ranks : List Nat) (st : MState) (h : Booked st)
    (hnd : ranks.Nodup) (hfree : ∀ rank ∈ ranks, rank ∉ busy st) :
    Booked (seed_slaves c ranks st).1 := by
  induction ranks generalizing st with
  | nil => exact h
  | cons rank ranks ih =>
    unfold seed_slaves
    have hnd2 := List.nodup_cons.mp hnd
    cases hs : master_send_job c st ((rank - 1) * c.PAYLOAD_SIZE) rank with
    | none => exact h
    | some st1 =>
      simp only
      apply ih st1 (booked_send h (hfree rank (List.mem_cons_self _ _)) hs) hnd2.2
      intro x hx hmem
      rw [busy_send hs, List.mem_append, List.mem_singleton] at hmem
      rcases hmem with hmem | rfl
      · exact hfree x (List.mem_cons_of_mem _ hx) hmem
      · exact hnd2.1 hx

theorem booked_send_remaining (c : Params) (sched : Nat → Nat) (is : List Nat) (st : MState)
    (h : Booked st) : Booked (send_remaining c sched is st).1 := by
  induction is generalizing st with
  | nil => exact h
  | cons i is ih =>
    unfold send_remaining
    cases hr : master_receive_result c sched st with
    | none => exact h
    | some pr =>
      obtain ⟨st1, src⟩ := pr
      obtain ⟨h1, h2⟩ := booked_receive h hr
      simp only
      cases hs : master_send_job c st1 (i * c.PAYLOAD_SIZE) src with
      | none => exact h1
      | some st2 => exact ih st2 (booked_send h1 h2 hs)

theorem booked_wait_completed (c : Params) (sched : Nat → Nat) (ranks : List Nat) (st : MState)
    (h : Booked st) : Booked (wait_completed c sched ranks st).1 := by
  induction ranks generalizing st with
  | nil => exact h
  | cons rank ranks ih =>
    unfold wait_completed
    cases hr : master_receive_result c sched st with
    | none => exact h
    | some pr =>
      obtain ⟨st1, src⟩ := pr
      exact ih _ (booked_receive h hr).1

theorem booked_kill_loop (c : Params) (ranks : List Nat) (st : MState) (h : Booked st) :
    Booked (ranks.foldl
      (fun s rank => { s with trace := s.trace ++ [Event.die (TAG_DIE c) rank] }) st) := by
  induction ranks generalizing st with
  | nil => exact h
  | cons rank ranks ih =>
    rw [List.foldl_cons]
    exact ih _ (booked_die _ rank h)

/-- An invariant of the states that the four loops keep is an invariant of
`master`, at whatever point the run stops. -/
theorem master_invariant (I : MState → Prop) (c : Params) (ntasks : Nat) (sched : Nat → Nat)
    (numbers : Matrix)
    (hseed : I (seed_slaves c (List.range' 1 (ntasks - 1)) ⟨numbers, [], 0, [], []⟩).1)
    (hsend : ∀ is st, I st → I (send_remaining c sched is st).1)
    (hwait : ∀ ranks st, I st → I (wait_completed c sched ranks st).1)
    (hkill : ∀ st, I st → I (kill_slaves c ntasks st)) :
    I (master c ntasks sched numbers).1 := by
  unfold master
  simp only
  generalize seed_slaves c (List.range' 1 (ntasks - 1)) ⟨numbers, [], 0, [], []⟩ = out1 at hseed
  obtain ⟨st1, b1⟩ := out1
  cases b1 with
  | false => exact hseed
  | true =>
    have h2 := hsend
      (List.range' (ntasks - 1) (c.TOTAL_ARRAYS / c.PAYLOAD_SIZE - (ntasks - 1))) st1 hseed
    simp only
    generalize send_remaining c sched
      (List.range' (ntasks - 1) (c.TOTAL_ARRAYS / c.PAYLOAD_SIZE - (ntasks - 1))) st1 = out2
      at h2
    obtain ⟨st2, b2⟩ := out2
    cases b2 with
    | false => exact h2
    | true =>
      have h3 := hwait (List.range' 1 (ntasks - 1)) st2 h2
      simp only
      generalize wait_completed c sched (List.range' 1 (ntasks - 1)) st2 = out3 at h3
      obtain ⟨st3, b3⟩ := out3
      cases b3 with
      | false => exact h3
      | true => exact hkill st3 h3

theorem booked_master (c : Params) (ntasks : Nat) (sched : Nat → Nat) (numbers : Matrix) :
    Booked (master c ntasks sched numbers).1 := by
  apply master_invariant Booked
  · apply booked_seed_slaves c _ _ (booked_init numbers) (List.nodup_range' 1 (ntasks - 1))
    intro rank _
    simp [busy]
  · exact booked_send_remaining c sched
  · exact booked_wait_completed c sched
  · intro st h
    exact booked_kill_loop c _ st h

/-! ## The shape of a run -/

theorem succ_mul_le_total {c : Params} {i n : Nat} (hi : i < n)
    (hn : n * c.PAYLOAD_SIZE ≤ c.TOTAL_ARRAYS) :
    i * c.PAYLOAD_SIZE + c.PAYLOAD_SIZE ≤ c.TOTAL_ARRAYS := by
  have h1 : (i + 1) * c.PAYLOAD_SIZE ≤ n * c.PAYLOAD_SIZE := Nat.mul_le_mul_right _ hi
  have h2 : (i + 1) * c.PAYLOAD_SIZE = i * c.PAYLOAD_SIZE + c.PAYLOAD_SIZE := Nat.succ_mul _ _
  omega

theorem mul_lt_total {c : Params} {i n : Nat} (hP : 0 < c.PAYLOAD_SIZE) (hi : i < n)
    (hn : n * c.PAYLOAD_SIZE ≤ c.TOTAL_ARRAYS) :
    i * c.PAYLOAD_SIZE < c.TOTAL_ARRAYS := by
  have := succ_mul_le_total hi hn
  omega

/-- The seeding loop for the ranks `s + 1, ..., s + n`, all of whose chunks lie
inside the matrix: it runs to its end, one assignment and one event per rank. -/
theorem seed_slaves_range (c : Params) (n s : Nat) (st : MState)
    (h : (s + n) * c.PAYLOAD_SIZE ≤ c.TOTAL_ARRAYS) :
    seed_slaves c (List.range' (s + 1) n) st =
      (⟨st.numbers,
        st.outstanding ++ (List.range' s n).map (fun k =>
          ⟨k + 1, ⟨k * c.PAYLOAD_SIZE, chunk c st.numbers (k * c.PAYLOAD_SIZE)⟩⟩),
        st.received,
        st.trace ++ (List.range' s n).map (fun k => Event.job (k * c.PAYLOAD_SIZE) (k + 1)),
        st.workers⟩, true) := by
  induction n generalizing s st with
  | zero => simp [seed_slaves]
  | succ n ih =>
    rw [List.range'_succ, List.range'_succ]
    unfold seed_slaves
    have hle : s * c.PAYLOAD_SIZE + c.PAYLOAD_SIZE ≤ c.TOTAL_ARRAYS :=
      succ_mul_le_total (by omega : s < s + (n + 1)) h
    rw [Nat.add_sub_cancel, master_send_job_of_le c st _ _ hle]
    simp only
    have h2 : (s + 1 + n) * c.PAYLOAD_SIZE ≤ c.TOTAL_ARRAYS := by
      have e : s + 1 + n = s + (n + 1) := by omega
      rw [e]
      exact h
    rw [ih (s + 1) _ h2]
    simp

theorem seed_slaves_eq (c : Params) (W : Nat) (numbers : Matrix)
    (h : W * c.PAYLOAD_SIZE ≤ c.TOTAL_ARRAYS) :
    seed_slaves c (List.range' 1 W) ⟨numbers, [], 0, [], []⟩ =
      (⟨numbers, seed_outstanding c numbers W, 0, seed_trace c W, []⟩, true) := by
  have := seed_slaves_range c W 0 ⟨numbers, [], 0, [], []⟩ (by rw [Nat.zero_add]; exact h)
  rw [Nat.zero_add] at this
  rw [this]
  simp [seed_outstanding, seed_trace, List.range_eq_range']

theorem seed_slaves_append (c : Params) (l1 l2 : List Nat) (st : MState) :
    seed_slaves c (l1 ++ l2) st =
      match seed_slaves c l1 st with
      | (st1, true) => seed_slaves c l2 st1
      | (st1, false) => (st1, false) := by
  induction l1 generalizing st with
  | nil => simp [seed_slaves]
  | cons rank l1 ih =>
    rw [List.cons_append]
    simp only [seed_slaves]
    cases master_send_job c st ((rank - 1) * c.PAYLOAD_SIZE) rank with
    | none => rfl
    | some st1 =>
      simp only
      exact ih st1

/-- The seeding loop for more workers than chunks: after the seeds of the
ranks `1, ..., TOTAL_ARRAYS / PAYLOAD_SIZE` the coordinator does not get
beyond the send for the next rank. -/
theorem seed_slaves_undersubscribed (c : Params) (W : Nat) (numbers : Matrix)
    (hP : 0 < c.PAYLOAD_SIZE) (hW : c.TOTAL_ARRAYS / c.PAYLOAD_SIZE < W) :
    seed_slaves c (List.range' 1 W) ⟨numbers, [], 0, [], []⟩ =
      (⟨numbers, seed_outstanding c numbers (c.TOTAL_ARRAYS / c.PAYLOAD_SIZE), 0,
        seed_trace c (c.TOTAL_ARRAYS / c.PAYLOAD_SIZE), []⟩, false) := by
  obtain ⟨m, hm⟩ : ∃ m, W = c.TOTAL_ARRAYS / c.PAYLOAD_SIZE + (m + 1) :=
    ⟨W - c.TOTAL_ARRAYS / c.PAYLOAD_SIZE - 1, by omega⟩
  have hsplit : List.range' 1 W =
      List.range' 1 (c.TOTAL_ARRAYS / c.PAYLOAD_SIZE) ++
        List.range' (1 + c.TOTAL_ARRAYS / c.PAYLOAD_SIZE) (m + 1) := by
    rw [hm, List.range'_append_1, Nat.add_comm]
  rw [hsplit, seed_slaves_append, seed_slaves_eq c _ numbers (Nat.div_mul_le_self _ _)]
  simp only
  rw [List.range'_succ]
  unfold seed_slaves
  have hgt : c.TOTAL_ARRAYS <
      (1 + c.TOTAL_ARRAYS / c.PAYLOAD_SIZE - 1) * c.PAYLOAD_SIZE + c.PAYLOAD_SIZE := by
    have h1 := Nat.lt_mul_div_succ c.TOTAL_ARRAYS hP
    have e : 1 + c.TOTAL_ARRAYS / c.PAYLOAD_SIZE - 1 = c.TOTAL_ARRAYS / c.PAYLOAD_SIZE :=
      Nat.add_sub_cancel_left 1 _
    rw [e, ← Nat.succ_mul, Nat.mul_comm]
    exact h1
  rw [master_send_job_of_gt c _ _ _ hgt]

theorem kill_loop_eq (c : Params) (ranks : List Nat) (st : MState) :
    ranks.foldl (fun s rank => { s with trace := s.trace ++ [Event.die (TAG_DIE c) rank] }) st =
      { st with trace := st.trace ++ ranks.map fun rank => Event.die (TAG_DIE c) rank } := by
  induction ranks generalizing st with
  | nil => simp
  | cons rank ranks ih =>
    rw [List.foldl_cons, ih]
    simp

theorem kill_slaves_eq (c : Params) (W : Nat) (st : MState) :
    kill_slaves c (W + 1) st = { st with trace := st.trace ++ kill_trace c W } := by
  unfold kill_slaves kill_trace
  rw [Nat.add_sub_cancel, kill_loop_eq]

theorem inFlight_seed (c : Params) (W : Nat) (numbers : Matrix) (hP : 0 < c.PAYLOAD_SIZE)
    (hW : W * c.PAYLOAD_SIZE ≤ c.TOTAL_ARRAYS) :
    InFlight c W ⟨numbers, seed_outstanding c numbers W, 0, seed_trace c W, []⟩ := by
  intro a ha
  simp only [seed_outstanding, List.mem_map, List.mem_range] at ha
  obtain ⟨k, hk, rfl⟩ := ha
  refine ⟨mul_lt_total hP hk hW, ?_, ?_⟩
  · simp
  · simp
    omega

theorem inFlight_tag_ne {c : Params} {W : Nat} {st : MState} (h : InFlight c W st) :
    ∀ a ∈ st.outstanding, a.msg.tag ≠ TAG_DIE c := by
  intro a ha
  have := (h a ha).1
  unfold TAG_DIE
  omega

/-- One receive of a run inside the data set. -/
theorem receive_run (c : Params) (sched : Nat → Nat) (W : Nat) (st : MState)
    (hne : st.outstanding ≠ []) (hin : InFlight c W st) :
    ∃ st1 src tag, master_receive_result c sched st = some (st1, src) ∧
      st1.trace = st.trace ++ [Event.result tag src] ∧
      st1.outstanding.length + 1 = st.outstanding.length ∧
      st1.received = st.received + 1 ∧
      InFlight c W st1 ∧ tag < c.TOTAL_ARRAYS ∧ 1 ≤ src ∧ src ≤ W := by
  obtain ⟨st1, src, hr⟩ := master_receive_result_progress c sched st hne (inFlight_tag_ne hin)
  obtain ⟨a, rest, hsrc, hperm, rfl⟩ := master_receive_result_some hr
  have ha : a ∈ st.outstanding := hperm.symm.subset (List.mem_cons_self a rest)
  refine ⟨_, src, a.msg.tag, hr, rfl, ?_, rfl, ?_, ?_, ?_, ?_⟩
  · have := hperm.length_eq
    simpa using this.symm
  · intro b hb
    exact hin b (hperm.symm.subset (List.mem_cons_of_mem a hb))
  · exact (hin a ha).1
  · rw [← hsrc]
    exact (hin a ha).2.1
  · rw [← hsrc]
    exact (hin a ha).2.2

theorem inFlight_send {c : Params} {W : Nat} {st st1 : MState} (h : InFlight c W st)
    {job_index dest : Nat} (hj : job_index < c.TOTAL_ARRAYS) (hd1 : 1 ≤ dest) (hd2 : dest ≤ W)
    (hs : master_send_job c st job_index dest = some st1) : InFlight c W st1 := by
  obtain ⟨_, rfl⟩ := master_send_job_some hs
  intro a ha
  simp only [List.mem_append, List.mem_singleton] at ha
  rcases ha with ha | rfl
  · exact h a ha
  · exact ⟨hj, hd1, hd2⟩

/-- The loop of lines 68-71 in a run inside the data set: it runs to its end
and its events are a `dispatch_trace`. -/
theorem send_remaining_run (c : Params) (sched : Nat → Nat) (W : Nat)
    (hP : 0 < c.PAYLOAD_SIZE) (m i : Nat) (st : MState)
    (hi : (i + m) * c.PAYLOAD_SIZE ≤ c.TOTAL_ARRAYS)
    (hne : st.outstanding ≠ []) (hin : InFlight c W st) :
    ∃ rs st2, send_remaining c sched (List.range' i m) st = (st2, true) ∧
      rs.length = m ∧ st2.trace = st.trace ++ dispatch_trace c i rs ∧
      st2.outstanding.length = st.outstanding.length ∧ InFlight c W st2 ∧
      (∀ r ∈ rs, r.1 < c.TOTAL_ARRAYS ∧ 1 ≤ r.2 ∧ r.2 ≤ W) := by
  induction m generalizing i st with
  | zero => exact ⟨[], st, rfl, rfl, by simp [dispatch_trace], rfl, hin, by simp⟩
  | succ m ih =>
    obtain ⟨st1, src, tag, hr, ht, hlen, _, hin1, htag, hs1, hs2⟩ :=
      receive_run c sched W st hne hin
    have hjob : i * c.PAYLOAD_SIZE < c.TOTAL_ARRAYS :=
      mul_lt_total hP (by omega : i < i + (m + 1)) hi
    have hle : i * c.PAYLOAD_SIZE + c.PAYLOAD_SIZE ≤ c.TOTAL_ARRAYS :=
      succ_mul_le_total (by omega : i < i + (m + 1)) hi
    have hsend := master_send_job_of_le c st1 (i * c.PAYLOAD_SIZE) src hle
    have hin2 := inFlight_send hin1 hjob hs1 hs2 hsend
    have hi2 : (i + 1 + m) * c.PAYLOAD_SIZE ≤ c.TOTAL_ARRAYS := by
      have : i + 1 + m = i + (m + 1) := by omega
      rw [this]
      exact hi
    obtain ⟨rs, st2, hrun, hrs, htr, hlen2, hin3, hall⟩ :=
      ih (i + 1) _ hi2 (by simp) hin2
    refine ⟨(tag, src) :: rs, st2, ?_, by simp [hrs], ?_, ?_, hin3, ?_⟩
    · rw [List.range'_succ]
      unfold send_remaining
      rw [hr]
      simp only
      rw [hsend]
      exact hrun
    · rw [htr]
      simp [ht, dispatch_trace]
    · rw [hlen2]
      simp
      omega
    · intro r hr
      rcases List.mem_cons.mp hr with rfl | hr
      · exact ⟨htag, hs1, hs2⟩
      · exact hall r hr

/-- The loop of lines 75-76 in a run inside the data set, for at most as many
rounds as assignments are outstanding. -/
theorem wait_completed_run (c : Params) (sched : Nat → Nat) (W : Nat)
    (ranks : List Nat) (st : MState)
    (hlen : ranks.length ≤ st.outstanding.length) (hin : InFlight c W st) :
    ∃ ds st3, wait_completed c sched ranks st = (st3, true) ∧
      ds.length = ranks.length ∧ st3.trace = st.trace ++ drain_trace ds ∧
      st3.outstanding.length + ranks.length = st.outstanding.length ∧ InFlight c W st3 ∧
      (∀ r ∈ ds, r.1 < c.TOTAL_ARRAYS ∧ 1 ≤ r.2 ∧ r.2 ≤ W) := by
  induction ranks generalizing st with
  | nil => exact ⟨[], st, rfl, rfl, by simp [drain_trace], by simp, hin, by simp⟩
  | cons rank ranks ih =>
    have hne : st.outstanding ≠ [] := by
      intro h
      rw [h] at hlen
      simp at hlen
    obtain ⟨st1, src, tag, hr, ht, hlen1, _, hin1, htag, hs1, hs2⟩ :=
      receive_run c sched W st hne hin
    have hlen2 : ranks.length ≤ st1.outstanding.length := by
      simp only [List.length_cons] at hlen
      omega
    obtain ⟨ds, st3, hrun, hds, htr, hlen3, hin3, hall⟩ := ih st1 hlen2 hin1
    refine ⟨(tag, src) :: ds, st3, ?_, by simp [hds], ?_, ?_, hin3, ?_⟩
    · unfold wait_completed
      rw [hr]
      exact hrun
    · rw [htr, ht]
      simp [drain_trace]
    · simp only [List.length_cons]
      omega
    · intro r hr
      rcases List.mem_cons.mp hr with rfl | hr
      · exact ⟨htag, hs1, hs2⟩
      · exact hall r hr

/-- A run with `W` workers, `1 ≤ W ≤ TOTAL_ARRAYS / PAYLOAD_SIZE`: every loop
runs to its end, and the trace is the seeds, then the dispatch rounds, then
the drained results, then the termination messages. -/
theorem master_run (c : Params) (W : Nat) (sched : Nat → Nat) (numbers : Matrix)
    (hP : 0 < c.PAYLOAD_SIZE) (hW1 : 1 ≤ W) (hW : W ≤ c.TOTAL_ARRAYS / c.PAYLOAD_SIZE) :
    ∃ rs ds st2 st3,
      send_remaining c sched (List.range' W (c.TOTAL_ARRAYS / c.PAYLOAD_SIZE - W))
        ⟨numbers, seed_outstanding c numbers W, 0, seed_trace c W, []⟩ = (st2, true) ∧
      wait_completed c sched (List.range' 1 W) st2 = (st3, true) ∧
      master c (W + 1) sched numbers = ({ st3 with trace := st3.trace ++ kill_trace c W }, true) ∧
      rs.length = c.TOTAL_ARRAYS / c.PAYLOAD_SIZE - W ∧ ds.length = W ∧
      st3.trace = seed_trace c W ++ dispatch_trace c W rs ++ drain_trace ds ∧
      st3.outstanding = [] ∧
      (∀ r ∈ rs, r.1 < c.TOTAL_ARRAYS ∧ 1 ≤ r.2 ∧ r.2 ≤ W) ∧
      (∀ r ∈ ds, r.1 < c.TOTAL_ARRAYS ∧ 1 ≤ r.2 ∧ r.2 ≤ W) := by
  have hN : c.TOTAL_ARRAYS / c.PAYLOAD_SIZE * c.PAYLOAD_SIZE ≤ c.TOTAL_ARRAYS :=
    Nat.div_mul_le_self _ _
  have hWP : W * c.PAYLOAD_SIZE ≤ c.TOTAL_ARRAYS :=
    le_trans (Nat.mul_le_mul_right _ hW) hN
  have hin := inFlight_seed c W numbers hP hWP
  have hlen1 : (seed_outstanding c numbers W).length = W := by simp [seed_outstanding]
  have hne : (⟨numbers, seed_outstanding c numbers W, 0, seed_trace c W, []⟩ :
      MState).outstanding ≠ [] := by
    intro h
    have : (seed_outstanding c numbers W).length = 0 := by
      simp only at h
      rw [h]
      rfl
    omega
  have hi : (W + (c.TOTAL_ARRAYS / c.PAYLOAD_SIZE - W)) * c.PAYLOAD_SIZE ≤ c.TOTAL_ARRAYS := by
    have : W + (c.TOTAL_ARRAYS / c.PAYLOAD_SIZE - W) = c.TOTAL_ARRAYS / c.PAYLOAD_SIZE := by omega
    rw [this]
    exact hN
  obtain ⟨rs, st2, hrun2, hrs, htr2, hlen2, hin2, hall2⟩ :=
    send_remaining_run c sched W hP _ W _ hi hne hin
  have hlen2b : (List.range' 1 W).length ≤ st2.outstanding.length := by
    rw [hlen2]
    simp [hlen1]
  obtain ⟨ds, st3, hrun3, hds, htr3, hlen3, _, hall3⟩ :=
    wait_completed_run c sched W (List.range' 1 W) st2 hlen2b hin2
  refine ⟨rs, ds, st2, st3, hrun2, hrun3, ?_, hrs, by simpa using hds, ?_, ?_, hall2, hall3⟩
  · unfold master
    simp only [Nat.add_sub_cancel]
    rw [seed_slaves_eq c W numbers hWP]
    simp only
    rw [hrun2]
    simp only
    rw [hrun3]
    simp only
    rw [kill_slaves_eq]
  · rw [htr3, htr2]
  · apply List.eq_nil_of_length_eq_zero
    rw [hlen2] at hlen3
    simp only [List.length_range'] at hlen3
    omega

/-- The trace of a run with `1 ≤ W ≤ TOTAL_ARRAYS / PAYLOAD_SIZE` workers. -/
theorem master_trace (c : Params) (W : Nat) (sched : Nat → Nat) (numbers : Matrix)
    (hP : 0 < c.PAYLOAD_SIZE) (hW1 : 1 ≤ W) (hW : W ≤ c.TOTAL_ARRAYS / c.PAYLOAD_SIZE) :
    ∃ rs ds,
      rs.length = c.TOTAL_ARRAYS / c.PAYLOAD_SIZE - W ∧ ds.length = W ∧
      (master c (W + 1) sched numbers).2 = true ∧
      (master c (W + 1) sched numbers).1.outstanding = [] ∧
      (master c (W + 1) sched numbers).1.trace =
        seed_trace c W ++ dispatch_trace c W rs ++ drain_trace ds ++ kill_trace c W ∧
      (∀ r ∈ rs, r.1 < c.TOTAL_ARRAYS ∧ 1 ≤ r.2 ∧ r.2 ≤ W) ∧
      (∀ r ∈ ds, r.1 < c.TOTAL_ARRAYS ∧ 1 ≤ r.2 ∧ r.2 ≤ W) := by
  obtain ⟨rs, ds, st2, st3, _, _, hm, hrs, hds, htr, hout, h2, h3⟩ :=
    master_run c W sched numbers hP hW1 hW
  refine ⟨rs, ds, hrs, hds, ?_, ?_, ?_, h2, h3⟩
  · rw [hm]
  · rw [hm]
    exact hout
  · rw [hm]
    simp only
    rw [htr]

/-! ## Reading the parts of a run -/

theorem jobs_sent_seed_trace (c : Params) (W : Nat) :
    jobs_sent (seed_trace c W) = (List.range W).map fun k => (k * c.PAYLOAD_SIZE, k + 1) := by
  unfold seed_trace
  induction W with
  | zero => rfl
  | succ W ih =>
    rw [List.range_succ, List.map_append, List.map_append, jobs_sent_append, ih]
    rfl

theorem results_received_seed_trace (c : Params) (W : Nat) :
    results_received (seed_trace c W) = [] := by
  unfold seed_trace
  induction W with
  | zero => rfl
  | succ W ih =>
    rw [List.range_succ, List.map_append, results_received_append, ih]
    rfl

theorem dies_sent_seed_trace (c : Params) (W : Nat) : dies_sent (seed_trace c W) = [] := by
  unfold seed_trace
  induction W with
  | zero => rfl
  | succ W ih =>
    rw [List.range_succ, List.map_append, dies_sent_append, ih]
    rfl

theorem jobs_sent_dispatch_trace (c : Params) (i : Nat) (rs : List (Nat × Nat)) :
    (jobs_sent (dispatch_trace c i rs)).map Prod.fst =
      (List.range' i rs.length).map fun k => k * c.PAYLOAD_SIZE := by
  induction rs generalizing i with
  | nil => rfl
  | cons r rs ih =>
    simp only [dispatch_trace, jobs_sent, List.map_cons, List.length_cons, List.range'_succ, ih]

theorem jobs_sent_dispatch_trace_snd (c : Params) (i : Nat) (rs : List (Nat × Nat)) :
    (jobs_sent (dispatch_trace c i rs)).map Prod.snd = rs.map Prod.snd := by
  induction rs generalizing i with
  | nil => rfl
  | cons r rs ih =>
    simp only [dispatch_trace, jobs_sent, List.map_cons, ih]

theorem results_received_dispatch_trace (c : Params) (i : Nat) (rs : List (Nat × Nat)) :
    results_received (dispatch_trace c i rs) = rs := by
  induction rs generalizing i with
  | nil => rfl
  | cons r rs ih =>
    simp only [dispatch_trace, results_received, ih]

theorem dies_sent_dispatch_trace (c : Params) (i : Nat) (rs : List (Nat × Nat)) :
    dies_sent (dispatch_trace c i rs) = [] := by
  induction rs generalizing i with
  | nil => rfl
  | cons r rs ih =>
    simp only [dispatch_trace, dies_sent, ih]

theorem jobs_sent_drain_trace (ds : List (Nat × Nat)) : jobs_sent (drain_trace ds) = [] := by
  unfold drain_trace
  induction ds with
  | nil => rfl
  | cons r ds ih => simpa [jobs_sent] using ih

theorem results_received_drain_trace (ds : List (Nat × Nat)) :
    results_received (drain_trace ds) = ds := by
  unfold drain_trace
  induction ds with
  | nil => rfl
  | cons r ds ih => simpa [results_received] using ih

theorem dies_sent_drain_trace (ds : List (Nat × Nat)) : dies_sent (drain_trace ds) = [] := by
  unfold drain_trace
  induction ds with
  | nil => rfl
  | cons r ds ih => simpa [dies_sent] using ih

theorem jobs_sent_map_die (g : Nat) (ranks : List Nat) :
    jobs_sent (ranks.map fun rank => Event.die g rank) = [] := by
  induction ranks with
  | nil => rfl
  | cons r ranks ih => simpa [jobs_sent] using ih

theorem results_received_map_die (g : Nat) (ranks : List Nat) :
    results_received (ranks.map fun rank => Event.die g rank) = [] := by
  induction ranks with
  | nil => rfl
  | cons r ranks ih => simpa [results_received] using ih

theorem dies_sent_map_die (g : Nat) (ranks : List Nat) :
    dies_sent (ranks.map fun rank => Event.die g rank) = ranks.map fun rank => (g, rank) := by
  induction ranks with
  | nil => rfl
  | cons r ranks ih => simpa [dies_sent] using ih

/-- The job indices of a run with `1 ≤ W ≤ TOTAL_ARRAYS / PAYLOAD_SIZE`
workers, in the order they are sent. -/
theorem master_job_indices (c : Params) (W : Nat) (sched : Nat → Nat) (numbers : Matrix)
    (hP : 0 < c.PAYLOAD_SIZE) (hW1 : 1 ≤ W) (hW : W ≤ c.TOTAL_ARRAYS / c.PAYLOAD_SIZE) :
    (jobs_sent (master c (W + 1) sched numbers).1.trace).map Prod.fst =
      (List.range (c.TOTAL_ARRAYS / c.PAYLOAD_SIZE)).map fun k => k * c.PAYLOAD_SIZE := by
  obtain ⟨rs, ds, hrs, _, _, _, htr, _, _⟩ := master_trace c W sched numbers hP hW1 hW
  rw [htr]
  simp only [jobs_sent_append, List.map_append, jobs_sent_seed_trace, jobs_sent_dispatch_trace,
    jobs_sent_drain_trace, kill_trace, jobs_sent_map_die, List.map_nil, List.append_nil,
    List.map_map, hrs]
  have h1 : (List.range W).map (Prod.fst ∘ fun k => (k * c.PAYLOAD_SIZE, k + 1)) =
      (List.range' 0 W).map fun k => k * c.PAYLOAD_SIZE := by
    rw [List.range_eq_range']
    rfl
  rw [h1, ← List.map_append, List.range_eq_range']
  congr 1
  have := List.range'_append_1 0 W (c.TOTAL_ARRAYS / c.PAYLOAD_SIZE - W)
  rw [Nat.zero_add] at this
  rw [this]
  congr 1
  omega

/-! ## The data set during a run -/

theorem chunk_length_le (c : Params) (numbers : Matrix) (j : Nat) :
    (chunk c numbers j).length ≤ c.PAYLOAD_SIZE := by
  unfold chunk
  rw [List.length_take]
  exact Nat.min_le_left _ _

theorem worker_payload_of_eq (c : Params) (st st1 : MState) (h : st1.workers = st.workers)
    (rank : Nat) : worker_payload c st1 rank = worker_payload c st rank := by
  unfold worker_payload
  rw [h]

theorem reply_payload_length (c : Params) (st : MState) (src : Nat) (m : Msg)
    (h : (worker_payload c st src).length = c.PAYLOAD_SIZE) :
    (reply_payload c st src m).length = c.PAYLOAD_SIZE := by
  unfold reply_payload
  rw [sort_payload_length, slave_receive_job_length c _ _ h]

theorem mul_payload_injective {c : Params} (hP : 0 < c.PAYLOAD_SIZE) :
    Function.Injective fun k : Nat => k * c.PAYLOAD_SIZE :=
  fun _ _ h => Nat.eq_of_mul_eq_mul_right hP h

theorem mem_job_indices_iff {c : Params} (hP : 0 < c.PAYLOAD_SIZE)
    (hdvd : c.PAYLOAD_SIZE ∣ c.TOTAL_ARRAYS) (j : Nat) :
    j ∈ (List.range (c.TOTAL_ARRAYS / c.PAYLOAD_SIZE)).map (fun k => k * c.PAYLOAD_SIZE) ↔
      c.PAYLOAD_SIZE ∣ j ∧ j < c.TOTAL_ARRAYS := by
  have hN : c.TOTAL_ARRAYS / c.PAYLOAD_SIZE * c.PAYLOAD_SIZE = c.TOTAL_ARRAYS :=
    Nat.div_mul_cancel hdvd
  simp only [List.mem_map, List.mem_range]
  constructor
  · rintro ⟨k, hk, rfl⟩
    refine ⟨Nat.dvd_mul_left _ _, ?_⟩
    exact mul_lt_total hP hk (le_of_eq hN)
  · rintro ⟨⟨k, rfl⟩, hj⟩
    refine ⟨k, ?_, Nat.mul_comm _ _⟩
    by_contra hk
    have h1 := Nat.mul_le_mul_right c.PAYLOAD_SIZE (Nat.le_of_not_lt hk)
    rw [hN, Nat.mul_comm k] at h1
    omega

theorem master_job_dests (c : Params) (W : Nat) (sched : Nat → Nat) (numbers : Matrix)
    (hP : 0 < c.PAYLOAD_SIZE) (hW1 : 1 ≤ W) (hW : W ≤ c.TOTAL_ARRAYS / c.PAYLOAD_SIZE) :
    ∀ p ∈ jobs_sent (master c (W + 1) sched numbers).1.trace, 1 ≤ p.2 ∧ p.2 ≤ W := by
  obtain ⟨rs, ds, _, _, _, _, htr, hall, _⟩ := master_trace c W sched numbers hP hW1 hW
  intro p hp
  have hp2 : p.2 ∈ (jobs_sent (master c (W + 1) sched numbers).1.trace).map Prod.snd :=
    List.mem_map_of_mem _ hp
  rw [htr] at hp2
  simp only [jobs_sent_append, List.map_append, jobs_sent_seed_trace,
    jobs_sent_dispatch_trace_snd, jobs_sent_drain_trace, kill_trace, jobs_sent_map_die,
    List.map_nil, List.append_nil, List.map_map, List.mem_append, List.mem_map,
    List.mem_range, Function.comp] at hp2
  rcases hp2 with ⟨k, hk, hkp⟩ | ⟨r, hr, hrp⟩
  · omega
  · have := hall r hr
    omega

/-- Claim C1, partition completeness.  With `PAYLOAD_SIZE` a positive divisor of
`TOTAL_ARRAYS` and `1 ≤ W ≤ TOTAL_ARRAYS / PAYLOAD_SIZE` workers, for every
arrival schedule `master` runs to its end, and in the list of assignments it
sent every job index `j` occurs once if `j` is a multiple of `PAYLOAD_SIZE`
below `TOTAL_ARRAYS` and never otherwise; the one assignment of a job index
goes to one worker, of rank between 1 and `W`. -/
theorem partition_completeness (c : Params) (W : Nat) (sched : Nat → Nat) (numbers : Matrix)
    (hP : 0 < c.PAYLOAD_SIZE) (hdvd : c.PAYLOAD_SIZE ∣ c.TOTAL_ARRAYS)
    (hW1 : 1 ≤ W) (hW : W ≤ c.TOTAL_ARRAYS / c.PAYLOAD_SIZE) :
    (master c (W + 1) sched numbers).2 = true ∧
    (∀ j, ((jobs_sent (master c (W + 1) sched numbers).1.trace).map Prod.fst).count j =
      if c.PAYLOAD_SIZE ∣ j ∧ j < c.TOTAL_ARRAYS then 1 else 0) ∧
    (∀ p ∈ jobs_sent (master c (W + 1) sched numbers).1.trace,
      ∀ q ∈ jobs_sent (master c (W + 1) sched numbers).1.trace, p.1 = q.1 → p.2 = q.2) ∧
    (∀ p ∈ jobs_sent (master c (W + 1) sched numbers).1.trace, 1 ≤ p.2 ∧ p.2 ≤ W) := by
  have hidx := master_job_indices c W sched numbers hP hW1 hW
  have hnd : ((jobs_sent (master c (W + 1) sched numbers).1.trace).map Prod.fst).Nodup := by
    rw [hidx]
    exact (List.nodup_range _).map (mul_payload_injective hP)
  obtain ⟨_, _, _, _, hdone, _, _, _, _⟩ := master_trace c W sched numbers hP hW1 hW
  refine ⟨hdone, ?_, ?_, master_job_dests c W sched numbers hP hW1 hW⟩
  · intro j
    rw [List.count_eq_of_nodup hnd, hidx]
    simp only [mem_job_indices_iff hP hdvd]
  · intro p hp q hq hpq
    rw [List.inj_on_of_nodup_map hnd hp hq hpq]

/-- The scenario (8 arrays in chunks of 2, with 2 workers) satisfies the
hypotheses of `partition_completeness`; its run ends and sends each of the job
indices 0, 2, 4, 6 once. -/
theorem partition_completeness_witness :
    (0 < scenario.PAYLOAD_SIZE ∧ scenario.PAYLOAD_SIZE ∣ scenario.TOTAL_ARRAYS ∧ 1 ≤ 2 ∧
      2 ≤ scenario.TOTAL_ARRAYS / scenario.PAYLOAD_SIZE) ∧
    (master scenario (2 + 1) (fun _ => 0) scenario_numbers).2 = true ∧
    (∀ j, ((jobs_sent (master scenario (2 + 1) (fun _ => 0) scenario_numbers).1.trace).map
        Prod.fst).count j =
      if scenario.PAYLOAD_SIZE ∣ j ∧ j < scenario.TOTAL_ARRAYS then 1 else 0) :=
  ⟨by decide,
    (partition_completeness scenario 2 (fun _ => 0) scenario_numbers (by decide) (by decide)
      (by decide) (by decide)).1,
    (partition_completeness scenario 2 (fun _ => 0) scenario_numbers (by decide) (by decide)
      (by decide) (by decide)).2.1⟩

/-- Claim C3, no double assignment.  In every run of `master`, whatever the
number of processes, the schedule and the data, and whether or not the run
reaches its end: every prefix of the trace has for every worker `w` at least
as many assignments to `w` as results from `w` and at most one more, so the
assignments to a worker and its results alternate, starting with an
assignment, and at most one assignment of a worker is outstanding; in the
state reached, the assignments sent to `w` and not answered are the
outstanding assignments of `w`, and no worker has two.  (That a result only
comes from a worker with an outstanding assignment is how
`master_receive_result` receives.) -/
theorem no_double_assignment (c : Params) (ntasks : Nat) (sched : Nat → Nat) (numbers : Matrix)
    (n w : Nat) :
    (received_from w ((master c ntasks sched numbers).1.trace.take n) ≤
        sent_to w ((master c ntasks sched numbers).1.trace.take n) ∧
      sent_to w ((master c ntasks sched numbers).1.trace.take n) ≤
        received_from w ((master c ntasks sched numbers).1.trace.take n) + 1) ∧
    sent_to w (master c ntasks sched numbers).1.trace =
      received_from w (master c ntasks sched numbers).1.trace +
        (busy (master c ntasks sched numbers).1).count w ∧
    (busy (master c ntasks sched numbers).1).Nodup :=
  ⟨(booked_master c ntasks sched numbers).prefixes n w,
    (booked_master c ntasks sched numbers).link w,
    (booked_master c ntasks sched numbers).nodup⟩

/-- Claim C9, at the failing input.  `cmpfunc` applied to the smallest `int` and 1,
both values an `int` can hold: the subtraction wraps around and the result is
the largest `int`, which is positive, although the first number is the
smaller one. -/
theorem cmpfunc_overflow :
    InInt32 (-2147483648) ∧ InInt32 1 ∧ (-2147483648 : Int) < 1 ∧
    cmpfunc (-2147483648) 1 = 2147483647 ∧ ¬ cmpfunc (-2147483648) 1 < 0 ∧
    cmpfunc 1 (-2147483648) = -2147483647 ∧ ¬ 0 < cmpfunc 1 (-2147483648) := by
  decide

/-- Claim C10, the data set that `master` generates.  For `i < TOTAL_ARRAYS` and
`n < TOTAL_NUMBERS`, with the constants of the program: every intermediate
value of `TOTAL_ARRAYS * TOTAL_NUMBERS - i * TOTAL_NUMBERS - n` fits an `int`,
so the stored number is the exact value; it lies between 1 and 1000000000;
two places hold the same number only if they are the same place; within an
array a later place holds a smaller number; and for any other stored number
the subtraction of `cmpfunc` fits an `int` and its sign is that of the order
of the two numbers. -/
theorem generated_dataset_exact (i n : Nat) (hi : i < source.TOTAL_ARRAYS)
    (hn : n < source.TOTAL_NUMBERS) :
    (initial_numbers source)[i]? = some ((List.range source.TOTAL_NUMBERS).map
      fun n => initial_number source i n) ∧
    InInt32 ((source.TOTAL_ARRAYS : Int) * (source.TOTAL_NUMBERS : Int)) ∧
    InInt32 ((i : Int) * (source.TOTAL_NUMBERS : Int)) ∧
    InInt32 ((source.TOTAL_ARRAYS : Int) * (source.TOTAL_NUMBERS : Int)
      - (i : Int) * (source.TOTAL_NUMBERS : Int)) ∧
    InInt32 ((source.TOTAL_ARRAYS : Int) * (source.TOTAL_NUMBERS : Int)
      - (i : Int) * (source.TOTAL_NUMBERS : Int) - (n : Int)) ∧
    initial_number source i n = initial_number_exact source i n ∧
    1 ≤ initial_number source i n ∧ initial_number source i n ≤ 1000000000 ∧
    (∀ i2 n2, i2 < source.TOTAL_ARRAYS → n2 < source.TOTAL_NUMBERS →
      (initial_number source i n = initial_number source i2 n2 ↔ i = i2 ∧ n = n2)) ∧
    (∀ n2, n < n2 → n2 < source.TOTAL_NUMBERS →
      initial_number source i n2 < initial_number source i n) ∧
    (∀ i2 n2, i2 < source.TOTAL_ARRAYS → n2 < source.TOTAL_NUMBERS →
      InInt32 (initial_number source i n - initial_number source i2 n2) ∧
      (cmpfunc (initial_number source i n) (initial_number source i2 n2) < 0 ↔
        initial_number source i n < initial_number source i2 n2) ∧
      (cmpfunc (initial_number source i n) (initial_number source i2 n2) = 0 ↔
        initial_number source i n = initial_number source i2 n2) ∧
      (0 < cmpfunc (initial_number source i n) (initial_number source i2 n2) ↔
        initial_number source i2 n2 < initial_number source i n)) := by
  have hi2 : i < 10000 := hi
  have hn2 : n < 100000 := hn
  have hv := initial_number_source i n hi2 hn2
  refine ⟨?_, ?_, ?_, ?_, ?_, ?_, ?_, ?_, ?_, ?_, ?_⟩
  · unfold initial_numbers
    rw [List.getElem?_map, List.getElem?_range hi]
    rfl
  · simp only [source, InInt32]
    omega
  · simp only [source, InInt32]
    push_cast
    omega
  · simp only [source, InInt32]
    push_cast
    omega
  · simp only [source, InInt32]
    push_cast
    omega
  · rw [hv]
    simp only [initial_number_exact, source]
    push_cast
    ring
  · rw [hv]
    omega
  · rw [hv]
    omega
  · intro i2 n2 h1 h2
    have h1b : i2 < 10000 := h1
    have h2b : n2 < 100000 := h2
    rw [hv, initial_number_source i2 n2 h1b h2b]
    omega
  · intro n2 h1 h2
    have h2b : n2 < 100000 := h2
    rw [hv, initial_number_source i n2 hi2 h2b]
    omega
  · intro i2 n2 h1 h2
    have h1b : i2 < 10000 := h1
    have h2b : n2 < 100000 := h2
    have hin : InInt32 (initial_number source i n - initial_number source i2 n2) := by
      rw [hv, initial_number_source i2 n2 h1b h2b]
      unfold InInt32
      omega
    exact ⟨hin, cmpfunc_sign_of_no_overflow hin⟩

/-- The last place of the last array satisfies the bounds of
`generated_dataset_exact`; the number stored there is 1. -/
theorem generated_dataset_exact_witness :
    9999 < source.TOTAL_ARRAYS ∧ 99999 < source.TOTAL_NUMBERS ∧
    1 ≤ initial_number source 9999 99999 ∧ initial_number source 9999 99999 ≤ 1000000000 :=
  ⟨by decide, by decide,
    (generated_dataset_exact 9999 99999 (by decide) (by decide)).2.2.2.2.2.2.1,
    (generated_dataset_exact 9999 99999 (by decide) (by decide)).2.2.2.2.2.2.2.1⟩

theorem job_mem_jobs_sent {j d : Nat} {l : List Event} (h : Event.job j d ∈ l) :
    (j, d) ∈ jobs_sent l := by
  induction l with
  | nil => simp at h
  | cons e l ih =>
    rcases List.mem_cons.mp h with rfl | h2
    · simp [jobs_sent]
    · cases e <;> simp [jobs_sent, ih h2]

theorem dispatch_trace_preceded (c : Params) (i : Nat) (rs : List (Nat × Nat))
    (rest : List Event) (hrest : jobs_sent rest = []) (q j d : Nat)
    (h : (dispatch_trace c i rs ++ rest)[q]? = some (Event.job j d)) :
    1 ≤ q ∧ ∃ t, (dispatch_trace c i rs ++ rest)[q - 1]? = some (Event.result t d) := by
  induction rs generalizing i q with
  | nil =>
    simp only [dispatch_trace, List.nil_append] at h
    have := job_mem_jobs_sent (List.getElem?_mem h)
    rw [hrest] at this
    simp at this
  | cons r rs ih =>
    simp only [dispatch_trace, List.cons_append] at h ⊢
    cases q with
    | zero => simp at h
    | succ q =>
      cases q with
      | zero =>
        simp only [zero_add, List.getElem?_cons_succ, List.getElem?_cons_zero, Option.some.injEq,
          Event.job.injEq] at h
        refine ⟨le_refl _, r.1, ?_⟩
        simp [h.2]
      | succ q =>
        simp only [List.getElem?_cons_succ] at h
        obtain ⟨hq, t, ht⟩ := ih (i + 1) q h
        refine ⟨by omega, t, ?_⟩
        obtain ⟨q2, rfl⟩ : ∃ q2, q = q2 + 1 := ⟨q - 1, by omega⟩
        simpa using ht

theorem jobs_sent_length_dispatch_trace (c : Params) (i : Nat) (rs : List (Nat × Nat)) :
    (jobs_sent (dispatch_trace c i rs)).length = rs.length := by
  have := congrArg List.length (jobs_sent_dispatch_trace_snd c i rs)
  simpa using this

theorem seed_trace_length (c : Params) (W : Nat) : (seed_trace c W).length = W := by
  simp [seed_trace]

/-- Claim C5, the greedy dispatch schedule.  With `PAYLOAD_SIZE` positive and
`1 ≤ W ≤ TOTAL_ARRAYS / PAYLOAD_SIZE` workers, for every arrival schedule
`master` runs to its end and: the job indices of the assignments, in the order
they are sent, are `k * PAYLOAD_SIZE` for `k = 0, 1, ...` below
`TOTAL_ARRAYS / PAYLOAD_SIZE`, a strictly increasing list; for `k < W`
the `k`-th assignment is the `k`-th call of the run and goes to worker
`k + 1`; every assignment made after these first `W` calls comes immediately
after the receipt of a result from the worker it is sent to; with
`W = TOTAL_ARRAYS / PAYLOAD_SIZE` the seeds are all the assignments.  In the
scenario (8 arrays, chunks of 2, 2 workers, worker 1 finishing first) the
assignments are `(0, 1)`, `(2, 2)`, `(4, 1)`, `(6, 2)`. -/
theorem greedy_dispatch_schedule (c : Params) (W : Nat) (sched : Nat → Nat) (numbers : Matrix)
    (hP : 0 < c.PAYLOAD_SIZE) (hW1 : 1 ≤ W) (hW : W ≤ c.TOTAL_ARRAYS / c.PAYLOAD_SIZE) :
    (master c (W + 1) sched numbers).2 = true ∧
    (jobs_sent (master c (W + 1) sched numbers).1.trace).map Prod.fst =
      (List.range (c.TOTAL_ARRAYS / c.PAYLOAD_SIZE)).map (fun k => k * c.PAYLOAD_SIZE) ∧
    ((jobs_sent (master c (W + 1) sched numbers).1.trace).map Prod.fst).Sorted (· < ·) ∧
    (∀ k, k < W →
      (master c (W + 1) sched numbers).1.trace[k]? =
        some (Event.job (k * c.PAYLOAD_SIZE) (k + 1)) ∧
      (jobs_sent (master c (W + 1) sched numbers).1.trace)[k]? =
        some (k * c.PAYLOAD_SIZE, k + 1)) ∧
    (∀ p j d, W ≤ p →
      (master c (W + 1) sched numbers).1.trace[p]? = some (Event.job j d) →
      ∃ t, (master c (W + 1) sched numbers).1.trace[p - 1]? = some (Event.result t d)) ∧
    (W = c.TOTAL_ARRAYS / c.PAYLOAD_SIZE →
      jobs_sent (master c (W + 1) sched numbers).1.trace =
        (List.range W).map fun k => (k * c.PAYLOAD_SIZE, k + 1)) ∧
    (master scenario 3 (fun _ => 0) scenario_numbers).1.trace =
      [Event.job 0 1, Event.job 2 2, Event.result 0 1, Event.job 4 1, Event.result 2 2,
        Event.job 6 2, Event.result 4 1, Event.result 6 2, Event.die 9 1, Event.die 9 2] ∧
    jobs_sent (master scenario 3 (fun _ => 0) scenario_numbers).1.trace =
      [(0, 1), (2, 2), (4, 1), (6, 2)] := by
  have hidx := master_job_indices c W sched numbers hP hW1 hW
  obtain ⟨rs, ds, hrs, hds, hdone, _, htr, _, _⟩ := master_trace c W sched numbers hP hW1 hW
  have hrest : jobs_sent (drain_trace ds ++ kill_trace c W) = [] := by
    rw [jobs_sent_append, jobs_sent_drain_trace, kill_trace, jobs_sent_map_die]
    rfl
  have htr2 : (master c (W + 1) sched numbers).1.trace =
      seed_trace c W ++ (dispatch_trace c W rs ++ (drain_trace ds ++ kill_trace c W)) := by
    rw [htr]
    simp only [List.append_assoc]
  refine ⟨hdone, hidx, ?_, ?_, ?_, ?_, by decide, by decide⟩
  · rw [hidx]
    exact (List.pairwise_lt_range _).map _ fun a b h => Nat.mul_lt_mul_of_pos_right h hP
  · intro k hk
    constructor
    · rw [htr2, List.getElem?_append_left (by rw [seed_trace_length]; exact hk)]
      unfold seed_trace
      rw [List.getElem?_map, List.getElem?_range hk]
      rfl
    · rw [htr2, jobs_sent_append, jobs_sent_seed_trace,
        List.getElem?_append_left (by simpa using hk), List.getElem?_map,
        List.getElem?_range hk]
      rfl
  · intro p j d hp hget
    rw [htr2, List.getElem?_append_right (by rw [seed_trace_length]; exact hp),
      seed_trace_length] at hget
    obtain ⟨hq, t, ht⟩ := dispatch_trace_preceded c W rs _ hrest (p - W) j d hget
    refine ⟨t, ?_⟩
    rw [htr2, List.getElem?_append_right (by rw [seed_trace_length]; omega), seed_trace_length]
    have e : p - 1 - W = p - W - 1 := by omega
    rw [e]
    exact ht
  · intro hWN
    have hrs0 : rs = [] := by
      apply List.eq_nil_of_length_eq_zero
      omega
    rw [htr2, hrs0, jobs_sent_append, jobs_sent_append, hrest, jobs_sent_seed_trace]
    simp [dispatch_trace, jobs_sent]

/-- The scenario satisfies the hypotheses of `greedy_dispatch_schedule`; its
run ends and sends the job indices 0, 2, 4, 6. -/
theorem greedy_dispatch_schedule_witness :
    (0 < scenario.PAYLOAD_SIZE ∧ 1 ≤ 2 ∧ 2 ≤ scenario.TOTAL_ARRAYS / scenario.PAYLOAD_SIZE) ∧
    (master scenario (2 + 1) (fun _ => 0) scenario_numbers).2 = true ∧
    (jobs_sent (master scenario (2 + 1) (fun _ => 0) scenario_numbers).1.trace).map Prod.fst =
      (List.range (scenario.TOTAL_ARRAYS / scenario.PAYLOAD_SIZE)).map
        (fun k => k * scenario.PAYLOAD_SIZE) :=
  ⟨by decide,
    (greedy_dispatch_schedule scenario 2 (fun _ => 0) scenario_numbers (by decide) (by decide)
      (by decide)).1,
    (greedy_dispatch_schedule scenario 2 (fun _ => 0) scenario_numbers (by decide) (by decide)
      (by decide)).2.1⟩

theorem sent_to_map_die (w g : Nat) (ranks : List Nat) :
    sent_to w (ranks.map fun rank => Event.die g rank) = 0 := by
  simp [sent_to, jobs_sent_map_die]

theorem received_from_map_die (w g : Nat) (ranks : List Nat) :
    received_from w (ranks.map fun rank => Event.die g rank) = 0 := by
  simp [received_from, results_received_map_die]

/-- The termination messages of a run with
`1 ≤ W ≤ TOTAL_ARRAYS / PAYLOAD_SIZE` workers. -/
theorem master_dies_sent (c : Params) (W : Nat) (sched : Nat → Nat) (numbers : Matrix)
    (hP : 0 < c.PAYLOAD_SIZE) (hW1 : 1 ≤ W) (hW : W ≤ c.TOTAL_ARRAYS / c.PAYLOAD_SIZE) :
    dies_sent (master c (W + 1) sched numbers).1.trace =
      (List.range' 1 W).map (fun rank => (TAG_DIE c, rank)) := by
  obtain ⟨rs, ds, _, _, _, _, htr, _, _⟩ := master_trace c W sched numbers hP hW1 hW
  rw [htr]
  simp only [dies_sent_append, dies_sent_seed_trace, dies_sent_dispatch_trace,
    dies_sent_drain_trace, kill_trace, dies_sent_map_die, List.nil_append]

/-- Claim C4, termination completeness.  With `PAYLOAD_SIZE` positive and
`1 ≤ W ≤ TOTAL_ARRAYS / PAYLOAD_SIZE` workers, for every arrival schedule
`master` runs to its end and its trace is a part `disp` (seeding and
dispatch), a part `drain` and then the termination messages, where: the
termination messages carry the tag `TAG_DIE` and go to the ranks
`1, 2, ..., W`, one each, and no other termination message is sent; `disp`
sends `TOTAL_ARRAYS / PAYLOAD_SIZE` assignments and receives
`TOTAL_ARRAYS / PAYLOAD_SIZE - W` results; `drain` is `W` calls, sends no
assignment and receives `W` results; so before the first termination message as many results
were received as assignments were sent, for every single worker too, and no
assignment is outstanding. -/
theorem termination_completeness (c : Params) (W : Nat) (sched : Nat → Nat) (numbers : Matrix)
    (hP : 0 < c.PAYLOAD_SIZE) (hW1 : 1 ≤ W) (hW : W ≤ c.TOTAL_ARRAYS / c.PAYLOAD_SIZE) :
    ∃ disp drain : List Event,
      (master c (W + 1) sched numbers).2 = true ∧
      (master c (W + 1) sched numbers).1.trace =
        disp ++ drain ++ (List.range' 1 W).map (fun rank => Event.die (TAG_DIE c) rank) ∧
      dies_sent (master c (W + 1) sched numbers).1.trace =
        (List.range' 1 W).map (fun rank => (TAG_DIE c, rank)) ∧
      dies_sent (disp ++ drain) = [] ∧
      (jobs_sent disp).length = c.TOTAL_ARRAYS / c.PAYLOAD_SIZE ∧
      (results_received disp).length = c.TOTAL_ARRAYS / c.PAYLOAD_SIZE - W ∧
      jobs_sent drain = [] ∧
      drain.length = W ∧
      (results_received drain).length = W ∧
      (results_received (disp ++ drain)).length = (jobs_sent (disp ++ drain)).length ∧
      (∀ w, received_from w (disp ++ drain) = sent_to w (disp ++ drain)) ∧
      (master c (W + 1) sched numbers).1.outstanding = [] := by
  obtain ⟨rs, ds, hrs, hds, hdone, hout, htr, _, _⟩ := master_trace c W sched numbers hP hW1 hW
  have hjd : (jobs_sent (seed_trace c W ++ dispatch_trace c W rs)).length =
      c.TOTAL_ARRAYS / c.PAYLOAD_SIZE := by
    rw [jobs_sent_append, List.length_append, jobs_sent_seed_trace, List.length_map,
      List.length_range, jobs_sent_length_dispatch_trace]
    omega
  have hrd : (results_received (seed_trace c W ++ dispatch_trace c W rs)).length =
      c.TOTAL_ARRAYS / c.PAYLOAD_SIZE - W := by
    rw [results_received_append, results_received_seed_trace, results_received_dispatch_trace,
      List.nil_append, hrs]
  refine ⟨seed_trace c W ++ dispatch_trace c W rs, drain_trace ds, hdone, htr,
    master_dies_sent c W sched numbers hP hW1 hW, ?_, hjd, hrd,
    jobs_sent_drain_trace ds, by simp [drain_trace, hds], ?_, ?_, ?_, hout⟩
  · simp only [dies_sent_append, dies_sent_seed_trace, dies_sent_dispatch_trace,
      dies_sent_drain_trace, List.nil_append]
  · rw [results_received_drain_trace, hds]
  · rw [results_received_append, jobs_sent_append, List.length_append, List.length_append, hjd,
      hrd, jobs_sent_drain_trace, results_received_drain_trace, hds]
    simp only [List.length_nil]
    omega
  · intro w
    have hl := (booked_master c (W + 1) sched numbers).link w
    have hb : busy (master c (W + 1) sched numbers).1 = [] := by
      simp [busy, hout]
    rw [hb, htr] at hl
    unfold kill_trace at hl
    rw [sent_to_append, received_from_append, sent_to_map_die, received_from_map_die] at hl
    simp only [List.count_nil, Nat.add_zero] at hl
    exact hl.symm

/-- The scenario satisfies the hypotheses of `termination_completeness`; its
run ends with nothing outstanding. -/
theorem termination_completeness_witness :
    (0 < scenario.PAYLOAD_SIZE ∧ 1 ≤ 2 ∧ 2 ≤ scenario.TOTAL_ARRAYS / scenario.PAYLOAD_SIZE) ∧
    ∃ disp drain : List Event,
      (master scenario (2 + 1) (fun _ => 0) scenario_numbers).2 = true ∧
      (master scenario (2 + 1) (fun _ => 0) scenario_numbers).1.trace =
        disp ++ drain ++ (List.range' 1 2).map (fun rank => Event.die (TAG_DIE scenario) rank) ∧
      (master scenario (2 + 1) (fun _ => 0) scenario_numbers).1.outstanding = [] := by
  refine ⟨by decide, ?_⟩
  obtain ⟨disp, drain, h1, h2, _, _, _, _, _, _, _, _, _, h3⟩ :=
    termination_completeness scenario 2 (fun _ => 0) scenario_numbers (by decide) (by decide)
      (by decide)
  exact ⟨disp, drain, h1, h2, h3⟩

/-! ## Job indices are multiples of the payload size, in every run -/

theorem aligned_send {c : Params} {st st1 : MState} (h : Aligned c st) {k dest : Nat}
    (hs : master_send_job c st (k * c.PAYLOAD_SIZE) dest = some st1) : Aligned c st1 := by
  obtain ⟨_, rfl⟩ := master_send_job_some hs
  intro p hp
  simp only [jobs_sent_append, List.mem_append] at hp
  rcases hp with hp | hp
  · exact h p hp
  · simp only [jobs_sent, List.mem_singleton] at hp
    rw [hp]
    exact Nat.dvd_mul_left _ _

theorem aligned_receive {c : Params} {sched : Nat → Nat} {st st1 : MState} {src : Nat}
    (h : Aligned c st) (hr : master_receive_result c sched st = some (st1, src)) :
    Aligned c st1 := by
  obtain ⟨a, rest, _, _, rfl⟩ := master_receive_result_some hr
  intro p hp
  simp only [jobs_sent_append, jobs_sent, List.append_nil] at hp
  exact h p hp

theorem aligned_seed_slaves (c : Params) (ranks : List Nat) (st : MState) (h : Aligned c st) :
    Aligned c (seed_slaves c ranks st).1 := by
  induction ranks generalizing st with
  | nil => exact h
  | cons rank ranks ih =>
    unfold seed_slaves
    cases hs : master_send_job c st ((rank - 1) * c.PAYLOAD_SIZE) rank with
    | none => exact h
    | some st1 => exact ih st1 (aligned_send h hs)

theorem aligned_send_remaining (c : Params) (sched : Nat → Nat) (is : List Nat) (st : MState)
    (h : Aligned c st) : Aligned c (send_remaining c sched is st).1 := by
  induction is generalizing st with
  | nil => exact h
  | cons i is ih =>
    unfold send_remaining
    cases hr : master_receive_result c sched st with
    | none => exact h
    | some pr =>
      obtain ⟨st1, src⟩ := pr
      simp only
      cases hs : master_send_job c st1 (i * c.PAYLOAD_SIZE) src with
      | none => exact aligned_receive h hr
      | some st2 => exact ih st2 (aligned_send (aligned_receive h hr) hs)

/-- The loop of lines 75-76 adds results to the trace and nothing else; when
it runs to its end it adds one result for each rank. -/
theorem wait_completed_trace (c : Params) (sched : Nat → Nat) (ranks : List Nat) (st : MState) :
    ∃ ds, (wait_completed c sched ranks st).1.trace = st.trace ++ drain_trace ds ∧
      ((wait_completed c sched ranks st).2 = true → ds.length = ranks.length) := by
  induction ranks generalizing st with
  | nil => exact ⟨[], by simp [wait_completed, drain_trace], fun _ => rfl⟩
  | cons rank ranks ih =>
    unfold wait_completed
    cases hr : master_receive_result c sched st with
    | none => exact ⟨[], by simp [drain_trace], fun h => by simp at h⟩
    | some pr =>
      obtain ⟨st1, src⟩ := pr
      obtain ⟨a, rest, _, _, rfl⟩ := master_receive_result_some hr
      obtain ⟨ds, h1, h2⟩ := ih
        ⟨store st.numbers a.msg.tag (reply_payload c st src a.msg), rest, st.received + 1,
          st.trace ++ [Event.result a.msg.tag src],
          (src, reply_payload c st src a.msg) :: st.workers⟩
      refine ⟨(a.msg.tag, src) :: ds, ?_, ?_⟩
      · simp only
        rw [h1]
        simp [drain_trace]
      · intro h
        simp only [List.length_cons]
        rw [h2 h]

theorem aligned_wait_completed (c : Params) (sched : Nat → Nat) (ranks : List Nat) (st : MState)
    (h : Aligned c st) : Aligned c (wait_completed c sched ranks st).1 := by
  obtain ⟨ds, hds, _⟩ := wait_completed_trace c sched ranks st
  intro p hp
  rw [hds, jobs_sent_append, jobs_sent_drain_trace, List.append_nil] at hp
  exact h p hp

theorem aligned_kill_slaves (c : Params) (ntasks : Nat) (st : MState) (h : Aligned c st) :
    Aligned c (kill_slaves c ntasks st) := by
  unfold kill_slaves
  rw [kill_loop_eq]
  intro p hp
  simp only [jobs_sent_append, jobs_sent_map_die, List.append_nil] at hp
  exact h p hp

theorem aligned_master (c : Params) (ntasks : Nat) (sched : Nat → Nat) (numbers : Matrix) :
    Aligned c (master c ntasks sched numbers).1 := by
  apply master_invariant (Aligned c)
  · apply aligned_seed_slaves
    intro p hp
    simp [jobs_sent] at hp
  · exact aligned_send_remaining c sched
  · exact aligned_wait_completed c sched
  · exact aligned_kill_slaves c ntasks

/-- Claim C7, the tag space of the program.  With the constants of the file:
`PAYLOAD_SIZE` divides `TOTAL_ARRAYS` and the quotient is 1250; in a run with
`1 ≤ W ≤ 1250` workers the job indices sent as tags are 1250 values, without
repetition, and they are the multiples of `PAYLOAD_SIZE` below `TOTAL_ARRAYS`;
`TAG_DIE` is 10001 where the coordinator sends it, every termination message
of the run carries it, and 10001 is the one tag on which the worker leaves its
loop; 10001 is not below `TOTAL_ARRAYS`, is no job index of the run and no
multiple of `PAYLOAD_SIZE`, and no assignment of any run, whatever the number
of processes, has it as job index. -/
theorem tag_space (W : Nat) (sched : Nat → Nat) (numbers : Matrix)
    (hW1 : 1 ≤ W) (hW : W ≤ 1250) :
    source.PAYLOAD_SIZE ∣ source.TOTAL_ARRAYS ∧
    source.TOTAL_ARRAYS / source.PAYLOAD_SIZE = 1250 ∧
    ((jobs_sent (master source (W + 1) sched numbers).1.trace).map Prod.fst).length = 1250 ∧
    ((jobs_sent (master source (W + 1) sched numbers).1.trace).map Prod.fst).Nodup ∧
    (∀ j, j ∈ (jobs_sent (master source (W + 1) sched numbers).1.trace).map Prod.fst ↔
      source.PAYLOAD_SIZE ∣ j ∧ j < source.TOTAL_ARRAYS) ∧
    TAG_DIE source = 10001 ∧
    (∀ p ∈ dies_sent (master source (W + 1) sched numbers).1.trace, p.1 = 10001) ∧
    (∀ (payload : Matrix) (m : Msg), slave_step source payload m = none ↔ m.tag = 10001) ∧
    ¬ 10001 < source.TOTAL_ARRAYS ∧
    (10001 ∉ (jobs_sent (master source (W + 1) sched numbers).1.trace).map Prod.fst) ∧
    (∀ k : Nat, k * source.PAYLOAD_SIZE ≠ 10001) ∧
    (∀ (ntasks : Nat) (sched2 : Nat → Nat) (numbers2 : Matrix) (j d : Nat),
      Event.job j d ∈ (master source ntasks sched2 numbers2).1.trace → j ≠ TAG_DIE source) := by
  have hP : 0 < source.PAYLOAD_SIZE := by decide
  have hdvd : source.PAYLOAD_SIZE ∣ source.TOTAL_ARRAYS := by decide
  have hq : source.TOTAL_ARRAYS / source.PAYLOAD_SIZE = 1250 := by decide
  have hW2 : W ≤ source.TOTAL_ARRAYS / source.PAYLOAD_SIZE := by rw [hq]; exact hW
  have hidx := master_job_indices source W sched numbers hP hW1 hW2
  have hmem := fun j => mem_job_indices_iff hP hdvd j
  have hno : ∀ k : Nat, k * source.PAYLOAD_SIZE ≠ 10001 := by
    intro k
    show k * 8 ≠ 10001
    omega
  have hdies := master_dies_sent source W sched numbers hP hW1 hW2
  refine ⟨hdvd, hq, ?_, ?_, ?_, rfl, ?_, ?_, by decide, ?_, hno, ?_⟩
  · rw [hidx, List.length_map, List.length_range, hq]
  · rw [hidx]
    exact (List.nodup_range _).map (mul_payload_injective hP)
  · intro j
    rw [hidx]
    exact hmem j
  · intro p hp
    rw [hdies] at hp
    simp only [List.mem_map] at hp
    obtain ⟨rank, _, rfl⟩ := hp
    rfl
  · intro payload m
    exact slave_step_eq_none_iff source payload m
  · rw [hidx]
    intro h
    have := (hmem 10001).mp h
    exact absurd this.2 (by decide)
  · intro ntasks sched2 numbers2 j d hj
    have h1 := aligned_master source ntasks sched2 numbers2 (j, d) (job_mem_jobs_sent hj)
    obtain ⟨k, hk⟩ := h1
    intro e
    have hk2 : j = 8 * k := hk
    have e2 : j = 10001 := e
    omega

/-- One worker satisfies the bounds of `tag_space`; the run then uses 1250
job indices. -/
theorem tag_space_witness :
    (1 ≤ 1 ∧ 1 ≤ 1250) ∧
    ((jobs_sent (master source (1 + 1) (fun _ => 0) (initial_numbers source)).1.trace).map
      Prod.fst).length = 1250 :=
  ⟨by decide,
    (tag_space 1 (fun _ => 0) (initial_numbers source) (by decide) (by decide)).2.2.1⟩

/-! ## More workers than chunks -/

/-- A run with more workers than chunks stops in the seeding loop: the state
reached is the one after the seeds of the ranks
`1, ..., TOTAL_ARRAYS / PAYLOAD_SIZE`. -/
theorem master_undersubscribed (c : Params) (W : Nat) (sched : Nat → Nat) (numbers : Matrix)
    (hP : 0 < c.PAYLOAD_SIZE) (hW : c.TOTAL_ARRAYS / c.PAYLOAD_SIZE < W) :
    master c (W + 1) sched numbers =
      (⟨numbers, seed_outstanding c numbers (c.TOTAL_ARRAYS / c.PAYLOAD_SIZE), 0,
        seed_trace c (c.TOTAL_ARRAYS / c.PAYLOAD_SIZE), []⟩, false) := by
  unfold master
  simp only [Nat.add_sub_cancel]
  rw [seed_slaves_undersubscribed c W numbers hP hW]

theorem job_mem_seed_trace {c : Params} {n j rank : Nat}
    (h : Event.job j rank ∈ seed_trace c n) : rank ≤ n ∧ j = (rank - 1) * c.PAYLOAD_SIZE := by
  simp only [seed_trace, List.mem_map, List.mem_range, Event.job.injEq] at h
  obtain ⟨k, hk, h1, h2⟩ := h
  subst h2
  refine ⟨hk, ?_⟩
  rw [Nat.add_sub_cancel]
  exact h1.symm

theorem die_not_mem_seed_trace (c : Params) (n g rank : Nat) :
    Event.die g rank ∉ seed_trace c n := by
  simp [seed_trace]

/-- Claim C8, seeding with more workers than chunks.  With `PAYLOAD_SIZE`
positive and `W > TOTAL_ARRAYS / PAYLOAD_SIZE` workers: the seeding loop does
not run to its end; the assignments it sends are those of the ranks
`1, ..., TOTAL_ARRAYS / PAYLOAD_SIZE`, rank `k + 1` getting the job index
`k * PAYLOAD_SIZE`; so there is a rank among `1 .. W` to which it sends no
assignment, and to which the run sends no termination message either; this
holds of every rank above `TOTAL_ARRAYS / PAYLOAD_SIZE`.  The run ends in the
seeding loop, at the send for rank `TOTAL_ARRAYS / PAYLOAD_SIZE + 1`, which
would read past the matrix: nothing is received and no termination message
is sent to any rank. -/
theorem undersubscribed_seeding (c : Params) (W : Nat) (sched : Nat → Nat) (numbers : Matrix)
    (hP : 0 < c.PAYLOAD_SIZE) (hW : c.TOTAL_ARRAYS / c.PAYLOAD_SIZE < W) :
    (seed_slaves c (List.range' 1 W) ⟨numbers, [], 0, [], []⟩).2 = false ∧
    jobs_sent (seed_slaves c (List.range' 1 W) ⟨numbers, [], 0, [], []⟩).1.trace =
      (List.range (c.TOTAL_ARRAYS / c.PAYLOAD_SIZE)).map
        (fun k => (k * c.PAYLOAD_SIZE, k + 1)) ∧
    (∃ rank, 1 ≤ rank ∧ rank ≤ W ∧
      (∀ j, Event.job j rank ∉
        (seed_slaves c (List.range' 1 W) ⟨numbers, [], 0, [], []⟩).1.trace) ∧
      (∀ g, Event.die g rank ∉ (master c (W + 1) sched numbers).1.trace)) ∧
    (∀ rank, c.TOTAL_ARRAYS / c.PAYLOAD_SIZE < rank → ∀ j,
      Event.job j rank ∉ (seed_slaves c (List.range' 1 W) ⟨numbers, [], 0, [], []⟩).1.trace ∧
      Event.job j rank ∉ (master c (W + 1) sched numbers).1.trace) ∧
    (master c (W + 1) sched numbers).2 = false ∧
    (master c (W + 1) sched numbers).1.trace =
      (seed_slaves c (List.range' 1 W) ⟨numbers, [], 0, [], []⟩).1.trace ∧
    results_received (master c (W + 1) sched numbers).1.trace = [] ∧
    dies_sent (master c (W + 1) sched numbers).1.trace = [] := by
  have hseed := seed_slaves_undersubscribed c W numbers hP hW
  have hmaster := master_undersubscribed c W sched numbers hP hW
  have hnojob : ∀ rank, c.TOTAL_ARRAYS / c.PAYLOAD_SIZE < rank → ∀ j,
      Event.job j rank ∉ seed_trace c (c.TOTAL_ARRAYS / c.PAYLOAD_SIZE) := by
    intro rank hrank j hmem
    exact absurd (job_mem_seed_trace hmem).1 (Nat.not_le_of_lt hrank)
  rw [hseed, hmaster]
  refine ⟨rfl, jobs_sent_seed_trace c _, ?_, ?_, rfl, rfl,
    results_received_seed_trace c _, dies_sent_seed_trace c _⟩
  · exact ⟨c.TOTAL_ARRAYS / c.PAYLOAD_SIZE + 1, Nat.le_add_left 1 _, Nat.succ_le_of_lt hW,
      hnojob _ (Nat.lt_succ_self _), fun g => die_not_mem_seed_trace c _ g _⟩
  · intro rank hrank j
    exact ⟨hnojob rank hrank j, hnojob rank hrank j⟩

/-- The scenario constants with 5 workers for 4 chunks satisfy the hypotheses
of `undersubscribed_seeding`: the seeding loop stops after the seeds of the
ranks 1 to 4 and the run sends no termination message. -/
theorem undersubscribed_seeding_witness :
    (0 < scenario.PAYLOAD_SIZE ∧ scenario.TOTAL_ARRAYS / scenario.PAYLOAD_SIZE < 5) ∧
    (seed_slaves scenario (List.range' 1 5) ⟨scenario_numbers, [], 0, [], []⟩).2 = false ∧
    jobs_sent (seed_slaves scenario (List.range' 1 5) ⟨scenario_numbers, [], 0, [], []⟩).1.trace =
      (List.range (scenario.TOTAL_ARRAYS / scenario.PAYLOAD_SIZE)).map
        (fun k => (k * scenario.PAYLOAD_SIZE, k + 1)) ∧
    dies_sent (master scenario (5 + 1) (fun _ => 0) scenario_numbers).1.trace = [] :=
  ⟨by decide,
    (undersubscribed_seeding scenario 5 (fun _ => 0) scenario_numbers (by decide)
      (by decide)).1,
    (undersubscribed_seeding scenario 5 (fun _ => 0) scenario_numbers (by decide)
      (by decide)).2.1,
    (undersubscribed_seeding scenario 5 (fun _ => 0) scenario_numbers (by decide)
      (by decide)).2.2.2.2.2.2.2⟩

/-! ## Sorting with `cmpfunc` -/

/-- The answer of the worker to an assignment with `PAYLOAD_SIZE` rows,
whatever its buffer held: the same tag, and every row replaced by what line
121 makes of it. -/
theorem slave_step_reply (c : Params) (payload : Matrix) (m : Msg) (htag : m.tag ≠ TAG_DIE c)
    (hlen : m.payload.length = c.PAYLOAD_SIZE) :
    slave_step c payload m =
      some (⟨m.tag, m.payload.map (sort_row c)⟩, m.payload.map (sort_row c)) := by
  rw [slave_step_eq c payload m htag, slave_receive_job_full c payload m.payload hlen,
    sort_payload_eq_map c m.payload (le_of_eq hlen)]

theorem overflow_row_length (c : Params) (hL : 0 < c.TOTAL_NUMBERS) :
    (overflow_row c).length = c.TOTAL_NUMBERS := by
  unfold overflow_row
  rw [List.length_cons, List.length_replicate]
  omega

theorem overflow_row_inInt32 (c : Params) : ∀ x ∈ overflow_row c, InInt32 x := by
  intro x hx
  unfold overflow_row at hx
  rcases List.mem_cons.mp hx with rfl | hx
  · decide
  · rw [(List.mem_replicate.mp hx).2]
    decide

theorem sort_row_overflow_row (c : Params) (hL : 0 < c.TOTAL_NUMBERS) :
    sort_row c (overflow_row c) = overflow_row c := by
  unfold sort_row overflow_row
  exact qsort_cons_replicate cmpfunc 1 (-2147483648) (c.TOTAL_NUMBERS - 1) c.TOTAL_NUMBERS
    (by omega) (by decide) (by decide)

theorem overflow_row_not_sorted (c : Params) (hL : 2 ≤ c.TOTAL_NUMBERS) :
    ¬ (overflow_row c).Sorted (· ≤ ·) := by
  unfold overflow_row
  intro h
  have h1 := (List.sorted_cons.mp h).1 (-2147483648)
    (List.mem_replicate.mpr ⟨by omega, rfl⟩)
  exact absurd h1 (by decide)

/-- Claim C6, at the failing input.  With the constants of the program the worker
is given the tag 0, which is not `TAG_DIE`, and `PAYLOAD_SIZE` arrays of
`TOTAL_NUMBERS` numbers that an `int` can hold, each array being 1 followed by
the smallest `int`.  Whatever its buffer held, it answers with the tag 0 and
the same arrays unchanged, and these are not in ascending order. -/
theorem slave_step_overflow :
    (0 : Nat) ≠ TAG_DIE source ∧
    (List.replicate source.PAYLOAD_SIZE (overflow_row source)).length = source.PAYLOAD_SIZE ∧
    (∀ row ∈ List.replicate source.PAYLOAD_SIZE (overflow_row source),
      row.length = source.TOTAL_NUMBERS ∧ ∀ x ∈ row, InInt32 x) ∧
    (∀ payload : Matrix,
      slave_step source payload ⟨0, List.replicate source.PAYLOAD_SIZE (overflow_row source)⟩ =
        some (⟨0, List.replicate source.PAYLOAD_SIZE (overflow_row source)⟩,
          List.replicate source.PAYLOAD_SIZE (overflow_row source))) ∧
    (∀ row ∈ List.replicate source.PAYLOAD_SIZE (overflow_row source),
      ¬ row.Sorted (· ≤ ·)) := by
  have hL : 0 < source.TOTAL_NUMBERS := by decide
  have hL2 : 2 ≤ source.TOTAL_NUMBERS := by decide
  refine ⟨by decide, List.length_replicate _ _, ?_, ?_, ?_⟩
  · intro row hrow
    rw [(List.mem_replicate.mp hrow).2]
    exact ⟨overflow_row_length source hL, overflow_row_inInt32 source⟩
  · intro payload
    rw [slave_step_reply source payload
      ⟨0, List.replicate source.PAYLOAD_SIZE (overflow_row source)⟩ (by decide)
      (List.length_replicate _ _)]
    simp only
    rw [List.map_replicate, sort_row_overflow_row source hL]
  · intro row hrow
    rw [(List.mem_replicate.mp hrow).2]
    exact overflow_row_not_sorted source hL2

/-- When the subtraction does not fit an `int`, the sign of `cmpfunc` is the
opposite of the order of the two numbers. -/
theorem cmpfunc_sign_of_overflow {a b : Int} (ha : InInt32 a) (hb : InInt32 b)
    (h : ¬ InInt32 (a - b)) :
    (a < b → 0 < cmpfunc a b) ∧ (b < a → cmpfunc a b < 0) := by
  unfold InInt32 at ha hb h
  unfold cmpfunc wrap32
  omega

/-- The failing row does not depend on how `qsort` sorts: whatever rearranges
the `overflow_row` so that `cmpfunc` finds every element not greater than its
successor, does not produce an ascending array. -/
theorem overflow_row_any_sort (c : Params) (hL : 2 ≤ c.TOTAL_NUMBERS) (out : List Int)
    (hperm : out.Perm (overflow_row c))
    (hchain : out.Chain' (fun x y => cmpfunc x y ≤ 0)) : ¬ out.Sorted (· ≤ ·) := by
  intro hs
  obtain ⟨m, hm⟩ : ∃ m, c.TOTAL_NUMBERS - 1 = m + 1 := ⟨c.TOTAL_NUMBERS - 2, by omega⟩
  have hrow : overflow_row c = 1 :: (List.replicate m (-2147483648) ++ [-2147483648]) := by
    unfold overflow_row
    rw [hm, List.replicate_succ']
  have hperm2 : out.Perm (List.replicate m (-2147483648) ++ [-2147483648, 1]) := by
    rw [hrow] at hperm
    refine hperm.trans ?_
    have h1 : (List.replicate m (-2147483648 : Int) ++ [-2147483648, 1]) =
        (List.replicate m (-2147483648) ++ [-2147483648]) ++ [1] := by simp
    rw [h1]
    exact (List.perm_append_singleton 1 _).symm
  have hsorted : (List.replicate m (-2147483648 : Int) ++ [-2147483648, 1]).Sorted (· ≤ ·) := by
    unfold List.Sorted
    rw [List.pairwise_append]
    refine ⟨?_, ?_, ?_⟩
    · rw [List.pairwise_replicate]
      right
      exact le_refl _
    · simp
    · intro a ha b hb
      rw [(List.mem_replicate.mp ha).2]
      rcases List.mem_cons.mp hb with rfl | hb
      · exact le_refl _
      · rw [List.mem_singleton.mp hb]
        decide
  have heq := List.eq_of_perm_of_sorted hperm2 hs hsorted
  rw [heq] at hchain
  have h2 := (List.chain'_append.mp hchain).2.1
  have h3 : cmpfunc (-2147483648) 1 ≤ 0 :=
    (List.chain'_pair (R := fun x y => cmpfunc x y ≤ 0)).mp h2
  exact absurd h3 (by decide)

/-- The loop of `slave` from any buffer on answers every assignment of
`PAYLOAD_SIZE` rows that precedes the termination message, in order, with the
tag of the assignment and its rows sorted by line 121, and sends nothing from
the termination message on. -/
theorem slave_loop_answers_until_die (c : Params) (jobs rest : List Msg) (die : Msg)
    (payload : Matrix)
    (hj : ∀ m ∈ jobs, m.tag ≠ TAG_DIE c ∧ m.payload.length = c.PAYLOAD_SIZE)
    (hd : die.tag = TAG_DIE c) :
    slave_loop c payload (jobs ++ die :: rest) =
      jobs.map fun m => ⟨m.tag, m.payload.map (sort_row c)⟩ := by
  induction jobs generalizing payload with
  | nil =>
    simp only [List.nil_append, List.map_nil]
    unfold slave_loop
    rw [(slave_step_eq_none_iff c payload die).mpr hd]
  | cons m jobs ih =>
    simp only [List.cons_append, List.map_cons]
    unfold slave_loop
    rw [slave_step_reply c payload m (hj m (List.mem_cons_self m jobs)).1
      (hj m (List.mem_cons_self m jobs)).2]
    simp only
    rw [ih _ fun x hx => hj x (List.mem_cons_of_mem m hx)]

/-- The function `slave` answers every assignment of `PAYLOAD_SIZE` rows that
precedes the termination message and sends nothing from that message on. -/
theorem slave_answers_until_die (c : Params) (jobs rest : List Msg) (die : Msg)
    (hj : ∀ m ∈ jobs, m.tag ≠ TAG_DIE c ∧ m.payload.length = c.PAYLOAD_SIZE)
    (hd : die.tag = TAG_DIE c) :
    slave c (jobs ++ die :: rest) =
      jobs.map fun m => ⟨m.tag, m.payload.map (sort_row c)⟩ :=
  slave_loop_answers_until_die c jobs rest die _ hj hd

/-- A pass of the worker from a buffer of `PAYLOAD_SIZE` rows sends
`PAYLOAD_SIZE` rows and leaves a buffer of `PAYLOAD_SIZE` rows, whatever the
message holds. -/
theorem slave_step_length {c : Params} {payload p : Matrix} {m r : Msg}
    (hb : payload.length = c.PAYLOAD_SIZE) (h : slave_step c payload m = some (r, p)) :
    r.payload.length = c.PAYLOAD_SIZE ∧ p.length = c.PAYLOAD_SIZE := by
  obtain ⟨hr, hp⟩ := slave_step_some h
  rw [hr, hp]
  simp only
  rw [sort_payload_length, slave_receive_job_length c payload m.payload hb]
  exact ⟨rfl, rfl⟩

theorem slave_loop_reply_length (c : Params) (msgs : List Msg) (payload : Matrix)
    (hb : payload.length = c.PAYLOAD_SIZE) :
    ∀ r ∈ slave_loop c payload msgs, r.payload.length = c.PAYLOAD_SIZE := by
  induction msgs generalizing payload with
  | nil =>
    intro r hr
    simp [slave_loop] at hr
  | cons m msgs ih =>
    intro r hr
    unfold slave_loop at hr
    cases hstep : slave_step c payload m with
    | none =>
      rw [hstep] at hr
      simp at hr
    | some rp =>
      obtain ⟨r1, p1⟩ := rp
      rw [hstep] at hr
      simp only at hr
      obtain ⟨h1, h2⟩ := slave_step_length hb hstep
      rcases List.mem_cons.mp hr with rfl | hr
      · exact h1
      · exact ih p1 h2 r hr

/-- Every message that `slave` sends holds `PAYLOAD_SIZE` rows, whatever it
was sent. -/
theorem slave_reply_length (c : Params) (msgs : List Msg) :
    ∀ r ∈ slave c msgs, r.payload.length = c.PAYLOAD_SIZE :=
  slave_loop_reply_length c msgs _ (alloc_contiguous_matrix_length _ _)

/-- Every worker with an assignment outstanding can be the source of the next
result: some value of the schedule makes `master_receive_result` return it. -/
theorem master_receive_result_of_busy (c : Params) (st : MState) (src : Nat)
    (hsrc : src ∈ busy st) (htag : ∀ a ∈ st.outstanding, a.msg.tag ≠ TAG_DIE c) :
    ∃ v, ∀ sched : Nat → Nat, sched st.received = v →
      ∃ st1, master_receive_result c sched st = some (st1, src) := by
  simp only [busy, List.mem_map] at hsrc
  obtain ⟨a, ha, hda⟩ := hsrc
  obtain ⟨v, hv⟩ := List.mem_iff_getElem?.mp ha
  have hlt : v < st.outstanding.length := (List.getElem?_eq_some.mp hv).1
  refine ⟨v, ?_⟩
  intro sched hs
  obtain ⟨b, rest, ho⟩ := oldest_for_of_mem ha hda
  obtain ⟨hb, hperm⟩ := oldest_for_some ho
  have hbm : b ∈ st.outstanding := hperm.symm.subset (List.mem_cons_self b rest)
  unfold master_receive_result
  rw [hs, Nat.mod_eq_of_lt hlt, hv]
  simp only
  rw [hda, ho]
  simp only
  rw [slave_step_eq c _ b.msg (htag b hbm)]
  simp only
  rw [hb]
  exact ⟨_, rfl⟩

end MpiMasterSlave
